import Mathlib

/-!
# Verification of the gifcut frame-asset streaming and caching pipeline

A shallow embedding, in Lean 4, of the core data structures and algorithms of
the gifcut repository: the binary cache codec (`_parseDelayBin`,
`_parsePreviewBin`), the disk cache loader (`_tryLoadDiskCaches`), the
filesystem-safe name transform (`_safeBaseFromPath`), the player's bounded
preload cache (`GifPlayer`), the extraction auto-pause listener, the
frame-rate-reduction preview (`fpsPreview`), the speed-adjustment algorithm
(`applyChanges`, speed tab), the workspace restore logic
(`loadWorkspaceFromPath`), and the version-switch handler
(`handleSelectVersion`).

Byte buffers are modelled as `List ℕ` of byte values; JavaScript numbers in
the speed-adjustment scaling are modelled as exact rationals (`ℚ`); fallible
decoding is modelled with `Except`.
-/

namespace Gifcut

/-- Little-endian 4-byte encoding of a value `n < 2^32` as a list of bytes. -/
def u32le (n : ℕ) : List ℕ :=
  [n % 256, n / 256 % 256, n / 65536 % 256, n / 16777216 % 256]

/-- `DataView.getUint32(off, true)` on a byte buffer: reads 4 bytes
little-endian, and throws (`Except.error`) when `off + 4` exceeds the buffer
length, exactly as `DataView` does. -/
def readU32 (bytes : List ℕ) (off : ℕ) : Except Unit ℕ :=
  if off + 4 ≤ bytes.length then
    .ok (bytes.getD off 0 + 256 * bytes.getD (off + 1) 0 +
         65536 * bytes.getD (off + 2) 0 + 16777216 * bytes.getD (off + 3) 0)
  else .error ()

/-- The entry-reading loop of `_parseDelayBin`: reads `k` uint32 values
starting at byte offset `off`. -/
def parseDelayLoop (bytes : List ℕ) : ℕ → ℕ → Except Unit (List ℕ)
  | 0, _ => .ok []
  | k + 1, off => do
    let v ← readU32 bytes off
    let vs ← parseDelayLoop bytes k (off + 4)
    .ok (v :: vs)

/-- `_parseDelayBin` (src/unnamed/part_002, lines 184-192): a uint32 count
followed by `count` uint32 delay values, all little-endian. -/
def parseDelayBin (bytes : List ℕ) : Except Unit (List ℕ) := do
  let count ← readU32 bytes 0
  parseDelayLoop bytes count 4

/-- Modelled from the spec: the delay-table encoder lives in the Rust backend,
which is not under src/; the spec gives its layout as little-endian
`uint32 count`, then `count × uint32 delayMs`. -/
def encodeDelays (delays : List ℕ) : List ℕ :=
  u32le delays.length ++ (delays.map u32le).flatten

theorem u32le_length (n : ℕ) : (u32le n).length = 4 := rfl

theorem readU32_append (pre rest : List ℕ) (n : ℕ) (hn : n < 4294967296) :
    readU32 (pre ++ (u32le n ++ rest)) pre.length = .ok n := by
  have hlen : pre.length + 4 ≤ (pre ++ (u32le n ++ rest)).length := by
    simp only [List.length_append, u32le, List.length_cons, List.length_nil]
    omega
  have hget : ∀ i : ℕ, i < 4 →
      (pre ++ (u32le n ++ rest)).getD (pre.length + i) 0 = (u32le n).getD i 0 := by
    intro i hi
    rw [List.getD_append_right _ _ _ _ (Nat.le_add_right pre.length i)]
    simp only [Nat.add_sub_cancel_left]
    rw [List.getD_append _ _ _ _ (by simp only [u32le, List.length_cons, List.length_nil]; omega)]
  simp only [readU32, if_pos hlen]
  have h0 := hget 0 (by omega)
  have h1 := hget 1 (by omega)
  have h2 := hget 2 (by omega)
  have h3 := hget 3 (by omega)
  simp only [Nat.add_zero] at h0
  rw [h0, h1, h2, h3]
  simp only [u32le, List.getD]
  norm_num
  omega

theorem parseDelayLoop_append (pre : List ℕ) (l : List ℕ)
    (hvals : ∀ d ∈ l, d < 4294967296) :
    parseDelayLoop (pre ++ (l.map u32le).flatten) l.length pre.length = .ok l := by
  induction l generalizing pre with
  | nil => simp [parseDelayLoop]
  | cons d ds ih =>
    have hd : d < 4294967296 := hvals d (List.mem_cons_self d ds)
    have hread : readU32 (pre ++ (u32le d ++ ((ds.map u32le).flatten))) pre.length = .ok d :=
      readU32_append pre ((ds.map u32le).flatten) d hd
    have hrec := ih (pre ++ u32le d) (fun x hx => hvals x (List.mem_cons_of_mem d hx))
    simp only [List.map_cons, List.flatten_cons, List.length_cons]
    show (do
      let v ← readU32 (pre ++ (u32le d ++ (ds.map u32le).flatten)) pre.length
      let vs ← parseDelayLoop (pre ++ (u32le d ++ (ds.map u32le).flatten)) ds.length (pre.length + 4)
      pure (v :: vs)) = Except.ok (d :: ds)
    rw [hread]
    have happ : pre ++ (u32le d ++ (ds.map u32le).flatten)
        = (pre ++ u32le d) ++ (ds.map u32le).flatten := by
      simp [List.append_assoc]
    have hlen4 : pre.length + 4 = (pre ++ u32le d).length := by
      simp [u32le]
    rw [happ, hlen4, hrec]
    rfl

/-- C4: the delay-table round-trip. Decoding (`_parseDelayBin`) the
spec-modelled little-endian encoding of any delay list of length at most
65535 whose values are uint32 recovers exactly the original list. -/
theorem delay_roundtrip (delays : List ℕ) (hlen : delays.length ≤ 65535)
    (hvals : ∀ d ∈ delays, d < 4294967296) :
    parseDelayBin (encodeDelays delays) = .ok delays := by
  have hcount : delays.length < 4294967296 := by omega
  have hread : readU32 ([] ++ (u32le delays.length ++ (delays.map u32le).flatten)) 0 = .ok delays.length := by
    have := readU32_append [] ((delays.map u32le).flatten) delays.length hcount
    simpa using this
  have hloop := parseDelayLoop_append (u32le delays.length) delays hvals
  have hlen4 : (u32le delays.length).length = 4 := rfl
  simp only [parseDelayBin, encodeDelays]
  rw [show u32le delays.length ++ (delays.map u32le).flatten
      = [] ++ (u32le delays.length ++ (delays.map u32le).flatten) from rfl] at *
  simp only [List.nil_append] at hread ⊢
  rw [hread]
  rw [hlen4] at hloop
  exact hloop

/-- Witness for C4 at a concrete delay list. -/
theorem delay_roundtrip_witness :
    parseDelayBin (encodeDelays [0, 4294967295, 70]) = .ok [0, 4294967295, 70] :=
  delay_roundtrip [0, 4294967295, 70] (by decide) (by decide)

theorem readU32_error_iff (bytes : List ℕ) (off : ℕ) :
    readU32 bytes off = .error () ↔ bytes.length < off + 4 := by
  unfold readU32
  split
  · simp; omega
  · simp; omega

theorem parseDelayLoop_error (bytes : List ℕ) (k off : ℕ) (hk : 0 < k)
    (hshort : bytes.length < off + 4 * k) :
    parseDelayLoop bytes k off = .error () := by
  induction k generalizing off with
  | zero => omega
  | succ k ih =>
    by_cases hfirst : bytes.length < off + 4
    · have herr := (readU32_error_iff bytes off).2 hfirst
      show (do
        let v ← readU32 bytes off
        let vs ← parseDelayLoop bytes k (off + 4)
        pure (v :: vs)) = Except.error ()
      rw [herr]
      rfl
    · have hread : ∃ v, readU32 bytes off = .ok v := by
        unfold readU32
        split
        · exact ⟨_, rfl⟩
        · omega
      obtain ⟨v, hv⟩ := hread
      have hkpos : 0 < k := by omega
      have hrec := ih (off + 4) hkpos (by omega)
      show (do
        let v ← readU32 bytes off
        let vs ← parseDelayLoop bytes k (off + 4)
        pure (v :: vs)) = Except.error ()
      rw [hv, hrec]
      rfl

/-- Part of C5: a delay buffer whose uint32 count implies more entries than the
bytes remaining never decodes successfully (and in particular never returns a
truncated list): the bounds-checked read throws first. -/
theorem parseDelayBin_malformed (bytes : List ℕ) (count : ℕ)
    (hcount : readU32 bytes 0 = .ok count)
    (hshort : bytes.length < 4 + 4 * count) :
    parseDelayBin bytes = .error () := by
  have hlen : 4 ≤ bytes.length := by
    by_contra h
    have : readU32 bytes 0 = .error () := (readU32_error_iff bytes 0).2 (by omega)
    rw [this] at hcount
    exact Except.noConfusion hcount
  have hkpos : 0 < count := by omega
  simp only [parseDelayBin]
  rw [hcount]
  show parseDelayLoop bytes count 4 = Except.error ()
  exact parseDelayLoop_error bytes count 4 hkpos (by omega)

/-- One decoded preview frame: `{ delay, frameWidth, frameHeight, raw bytes }`. -/
structure PFrame where
  delay : ℕ
  pw : ℕ
  ph : ℕ
  raw : List ℕ
deriving Repr, DecidableEq

/-- The per-frame loop of `_parsePreviewBin`: at each offset it reads four
uint32 header fields (bounds-checked, as `DataView` throws), then slices
`len` raw bytes (`ArrayBuffer.slice` clamps at the end of the buffer), and
constructs an `ImageData(arr, pw, ph)`, which throws unless the byte count is
exactly `4 * pw * ph` with positive dimensions. -/
def parsePreviewLoop (bytes : List ℕ) : ℕ → ℕ → Except Unit (List PFrame)
  | 0, _ => .ok []
  | k + 1, off => do
    let delay ← readU32 bytes off
    let pw ← readU32 bytes (off + 4)
    let ph ← readU32 bytes (off + 8)
    let len ← readU32 bytes (off + 12)
    let raw := (bytes.drop (off + 16)).take len
    if raw.length = 4 * pw * ph ∧ 0 < pw ∧ 0 < ph then
      let rest ← parsePreviewLoop bytes k (off + 16 + len)
      .ok (⟨delay, pw, ph, raw⟩ :: rest)
    else .error ()

/-- A decoded preview bundle: overall dimensions plus the frame list. -/
structure PreviewBundle where
  width : ℕ
  height : ℕ
  frames : List PFrame
deriving Repr, DecidableEq

/-- `_parsePreviewBin` (src/unnamed/part_002, lines 197-226). -/
def parsePreviewBin (bytes : List ℕ) : Except Unit PreviewBundle := do
  let width ← readU32 bytes 0
  let height ← readU32 bytes 4
  let count ← readU32 bytes 8
  let frames ← parsePreviewLoop bytes count 12
  .ok ⟨width, height, frames⟩

/-- The file-system state that `_tryLoadDiskCaches` consults for one source:
existence of the two data files, existence and size of the two `.sha256`
sidecars (a failing `get_file_size` call is recorded as size 0, as in the
source's `catch {}`), and the data files' contents. -/
structure CacheFs where
  previewExists : Bool
  previewBytes : List ℕ
  previewHashExists : Bool
  previewHashSize : ℕ
  delayExists : Bool
  delayBytes : List ℕ
  delayHashExists : Bool
  delayHashSize : ℕ
deriving Repr, DecidableEq

/-- The preview branch of `_tryLoadDiskCaches` (lines 248-274), as an
exception-propagating step: `doVerify` gates on the sidecar; a parse failure
propagates to the function-level catch. -/
def tryLoadPreviewStep (fs : CacheFs) (doVerify : Bool) :
    Except Unit (Option PreviewBundle) :=
  if fs.previewExists then
    if doVerify then
      if fs.previewHashExists ∧ 0 < fs.previewHashSize then do
        let p ← parsePreviewBin fs.previewBytes
        .ok (some p)
      else .ok none
    else do
      let p ← parsePreviewBin fs.previewBytes
      .ok (some p)
  else .ok none

/-- The delay branch of `_tryLoadDiskCaches` (lines 276-301). -/
def tryLoadDelayStep (fs : CacheFs) (doVerify : Bool) :
    Except Unit (Option (List ℕ)) :=
  if fs.delayExists then
    if doVerify then
      if fs.delayHashExists ∧ 0 < fs.delayHashSize then do
        let d ← parseDelayBin fs.delayBytes
        .ok (some d)
      else .ok none
    else do
      let d ← parseDelayBin fs.delayBytes
      .ok (some d)
  else .ok none

/-- `_tryLoadDiskCaches` (src/unnamed/part_002, lines 234-307): runs the
preview branch then the delay branch inside a single `try`; any thrown parse
error reaches the one `catch`, which returns
`{ loadedPreview: null, loadedDelays: null }`. `doVerify = (verify !== false)`.
Progress reporting and the no-op `_persistGifCaches` migration are omitted. -/
def tryLoadDiskCaches (fs : CacheFs) (verify : Option Bool) :
    Option PreviewBundle × Option (List ℕ) :=
  match tryLoadPreviewStep fs (!(verify == some false)) with
  | .error _ => (none, none)
  | .ok loadedPreview =>
    match tryLoadDelayStep fs (!(verify == some false)) with
    | .error _ => (none, none)
    | .ok loadedDelays => (loadedPreview, loadedDelays)

/-- A well-formed one-frame 1×1 preview buffer. -/
def goodPreviewBytes : List ℕ :=
  u32le 1 ++ u32le 1 ++ u32le 1 ++
  (u32le 10 ++ u32le 1 ++ u32le 1 ++ u32le 4 ++ [9, 9, 9, 9])

/-- A malformed delay buffer: count 5 declared, no entry bytes present. -/
def badDelayBytes : List ℕ := u32le 5

/-- A cache state with a present, well-formed, sidecar-validated preview
bundle next to a present, sidecar-validated but malformed delay table. -/
def fsMixedCorrupt : CacheFs :=
  { previewExists := true
    previewBytes := goodPreviewBytes
    previewHashExists := true
    previewHashSize := 64
    delayExists := true
    delayBytes := badDelayBytes
    delayHashExists := true
    delayHashSize := 64 }

/-- Counterexample to C5: the failure is not confined to the malformed
artifact. With a well-formed, validated preview bundle on disk and a
malformed delay table (count 5, zero entry bytes), `_tryLoadDiskCaches`
returns BOTH artifacts absent: the single function-level catch discards the
already-decoded preview. The claim requires the load failure to hit the
malformed artifact only. -/
theorem tryLoad_not_artifact_local :
    parsePreviewBin goodPreviewBytes =
      .ok ⟨1, 1, [⟨10, 1, 1, [9, 9, 9, 9]⟩]⟩ ∧
    parseDelayBin badDelayBytes = .error () ∧
    tryLoadDiskCaches fsMixedCorrupt none = (none, none) := by
  refine ⟨rfl, rfl, rfl⟩

/-- C5 as amended: (1) a delay buffer whose count implies more entries than
remain always fails to decode — the bounds-checked reads throw rather than
read out of bounds or return a truncated list; (2)-(3) a parse failure in
either artifact makes `_tryLoadDiskCaches` return with BOTH artifacts absent
(the load failure is per call, not per artifact). -/
theorem corrupt_cache_handling :
    (∀ bytes count, readU32 bytes 0 = .ok count → bytes.length < 4 + 4 * count →
      parseDelayBin bytes = .error ()) ∧
    (∀ fs : CacheFs, ∀ verify, fs.delayExists = true → fs.delayHashExists = true →
      0 < fs.delayHashSize → parseDelayBin fs.delayBytes = .error () →
      tryLoadDiskCaches fs verify = (none, none)) ∧
    (∀ fs : CacheFs, ∀ verify, fs.previewExists = true → fs.previewHashExists = true →
      0 < fs.previewHashSize → parsePreviewBin fs.previewBytes = .error () →
      tryLoadDiskCaches fs verify = (none, none)) := by
  refine ⟨parseDelayBin_malformed, ?_, ?_⟩
  · intro fs verify hde hdh hds hparse
    have hstep : ∀ dv, tryLoadDelayStep fs dv = .error () := by
      intro dv
      cases dv with
      | false =>
        unfold tryLoadDelayStep
        rw [if_pos hde]
        simp only [Bool.false_eq_true, if_false]
        rw [hparse]
        rfl
      | true =>
        unfold tryLoadDelayStep
        rw [if_pos hde, if_pos rfl, if_pos ⟨hdh, hds⟩, hparse]
        rfl
    unfold tryLoadDiskCaches
    simp only [hstep]
    cases tryLoadPreviewStep fs (!(verify == some false)) <;> rfl
  · intro fs verify hpe hph hps hparse
    have hstep : ∀ dv, tryLoadPreviewStep fs dv = .error () := by
      intro dv
      cases dv with
      | false =>
        unfold tryLoadPreviewStep
        rw [if_pos hpe]
        simp only [Bool.false_eq_true, if_false]
        rw [hparse]
        rfl
      | true =>
        unfold tryLoadPreviewStep
        rw [if_pos hpe, if_pos rfl, if_pos ⟨hph, hps⟩, hparse]
        rfl
    unfold tryLoadDiskCaches
    rw [hstep]

/-- Witness for the amended C5 at the concrete mixed-corruption state. -/
theorem corrupt_cache_handling_witness :
    tryLoadDiskCaches fsMixedCorrupt none = (none, none) :=
  corrupt_cache_handling.2.1 fsMixedCorrupt none rfl rfl (by decide) rfl

theorem previewStep_gate_closed (fs : CacheFs)
    (h : ¬(fs.previewHashExists = true ∧ 0 < fs.previewHashSize)) :
    tryLoadPreviewStep fs true = .ok none := by
  unfold tryLoadPreviewStep
  cases hpe : fs.previewExists with
  | false => rfl
  | true =>
    rw [if_pos rfl, if_pos rfl, if_neg h]

theorem delayStep_gate_closed (fs : CacheFs)
    (h : ¬(fs.delayHashExists = true ∧ 0 < fs.delayHashSize)) :
    tryLoadDelayStep fs true = .ok none := by
  unfold tryLoadDelayStep
  cases hde : fs.delayExists with
  | false => rfl
  | true =>
    rw [if_pos rfl, if_pos rfl, if_neg h]

theorem previewStep_some_gate (fs : CacheFs) (p : PreviewBundle)
    (h : tryLoadPreviewStep fs true = .ok (some p)) :
    fs.previewExists = true ∧ fs.previewHashExists = true ∧ 0 < fs.previewHashSize := by
  unfold tryLoadPreviewStep at h
  cases hpe : fs.previewExists with
  | false =>
    rw [hpe] at h
    simp only [Bool.false_eq_true, if_false] at h
    exact Option.noConfusion (Except.ok.inj h)
  | true =>
    rw [hpe] at h
    simp only [if_true] at h
    by_cases hg : fs.previewHashExists = true ∧ 0 < fs.previewHashSize
    · exact ⟨rfl, hg.1, hg.2⟩
    · rw [if_neg hg] at h
      exact absurd (Except.ok.inj h) (by simp)

theorem delayStep_some_gate (fs : CacheFs) (d : List ℕ)
    (h : tryLoadDelayStep fs true = .ok (some d)) :
    fs.delayExists = true ∧ fs.delayHashExists = true ∧ 0 < fs.delayHashSize := by
  unfold tryLoadDelayStep at h
  cases hde : fs.delayExists with
  | false =>
    rw [hde] at h
    simp only [Bool.false_eq_true, if_false] at h
    exact Option.noConfusion (Except.ok.inj h)
  | true =>
    rw [hde] at h
    simp only [if_true] at h
    by_cases hg : fs.delayHashExists = true ∧ 0 < fs.delayHashSize
    · exact ⟨rfl, hg.1, hg.2⟩
    · rw [if_neg hg] at h
      exact absurd (Except.ok.inj h) (by simp)

/-- C6: the cache validity gate of `_tryLoadDiskCaches`. For each artifact
independently, when the call verifies (as both call sites in the source do:
`verify` is left undefined, and `doVerify = (verify !== false)`): the artifact
can only come back loaded when its `.sha256` sidecar exists with size greater
than zero (and the data file exists); whenever the sidecar is missing or zero
bytes, that artifact comes back absent, even if the data file is present and
well-formed. -/
theorem cache_validity_gate (fs : CacheFs) (verify : Option Bool)
    (hv : verify ≠ some false) :
    (¬(fs.previewHashExists = true ∧ 0 < fs.previewHashSize) →
      (tryLoadDiskCaches fs verify).1 = none) ∧
    (¬(fs.delayHashExists = true ∧ 0 < fs.delayHashSize) →
      (tryLoadDiskCaches fs verify).2 = none) ∧
    (∀ p, (tryLoadDiskCaches fs verify).1 = some p →
      fs.previewExists = true ∧ fs.previewHashExists = true ∧ 0 < fs.previewHashSize) ∧
    (∀ d, (tryLoadDiskCaches fs verify).2 = some d →
      fs.delayExists = true ∧ fs.delayHashExists = true ∧ 0 < fs.delayHashSize) := by
  have hbv : (!(verify == some false)) = true := by
    cases verify with
    | none => rfl
    | some b =>
      cases b with
      | false => exact absurd rfl hv
      | true => rfl
  unfold tryLoadDiskCaches
  rw [hbv]
  refine ⟨?_, ?_, ?_, ?_⟩
  · intro h
    rw [previewStep_gate_closed fs h]
    cases tryLoadDelayStep fs true <;> rfl
  · intro h
    rw [delayStep_gate_closed fs h]
    cases tryLoadPreviewStep fs true <;> rfl
  · intro p hp
    cases hprev : tryLoadPreviewStep fs true with
    | error e => rw [hprev] at hp; exact Option.noConfusion hp
    | ok lp =>
      rw [hprev] at hp
      cases hdel : tryLoadDelayStep fs true with
      | error e => rw [hdel] at hp; exact Option.noConfusion hp
      | ok ld =>
        rw [hdel] at hp
        simp only at hp
        rw [hp] at hprev
        exact previewStep_some_gate fs p hprev
  · intro d hd
    cases hprev : tryLoadPreviewStep fs true with
    | error e => rw [hprev] at hd; exact Option.noConfusion hd
    | ok lp =>
      rw [hprev] at hd
      cases hdel : tryLoadDelayStep fs true with
      | error e => rw [hdel] at hd; exact Option.noConfusion hd
      | ok ld =>
        rw [hdel] at hd
        simp only at hd
        rw [hd] at hdel
        exact delayStep_some_gate fs d hdel

/-- The concrete scenario from the spec: for basename `cat`, the delay data
file is present and well-formed but its sidecar is zero-length. -/
def fsCatNoSidecar : CacheFs :=
  { previewExists := false
    previewBytes := []
    previewHashExists := false
    previewHashSize := 0
    delayExists := true
    delayBytes := encodeDelays [100, 100]
    delayHashExists := true
    delayHashSize := 0 }

/-- Witness for C6 at the spec's concrete scenario: the delay artifact is
reported absent although the data file is present and decodes fine. -/
theorem cache_validity_gate_witness :
    (tryLoadDiskCaches fsCatNoSidecar none).2 = none :=
  (cache_validity_gate fsCatNoSidecar none (by simp)).2.1 (by decide)

/-- The regex class `[0-9A-Za-z]` of `_safeBaseFromPath`. -/
def isAlnumChar (c : Char) : Bool :=
  ('0' ≤ c && c ≤ '9') || ('A' ≤ c && c ≤ 'Z') || ('a' ≤ c && c ≤ 'z')

/-- Decimal digit characters. -/
def isDigitChar (c : Char) : Bool := '0' ≤ c && c ≤ '9'

/-- Little-endian decimal digits of `n` (fuelled, structural). -/
def decDigitsRev (fuel : ℕ) (n : ℕ) : List ℕ :=
  match fuel with
  | 0 => []
  | fuel + 1 => if n = 0 then [] else n % 10 :: decDigitsRev fuel (n / 10)

/-- JavaScript `String(n)` for a natural number: its decimal digits. -/
def decStr (n : ℕ) : List Char :=
  if n = 0 then ['0']
  else ((decDigitsRev n n).reverse.map (fun d => Char.ofNat (48 + d)))

/-- The per-character transform of `_safeBaseFromPath`: a `[0-9A-Za-z]`
character is kept, any other character becomes `_` followed by its decimal
code point. -/
def encodeChar (c : Char) : List Char :=
  if isAlnumChar c then [c] else '_' :: decStr c.toNat

/-- `Array.from(baseName).map(...).join('')` of `_safeBaseFromPath`. -/
def sanitizeBase (s : List Char) : List Char := (s.map encodeChar).flatten

/-- `p.split(/[/\\]/).pop()`: the part of the path after the last slash or
backslash. -/
def lastSegment (p : List Char) : List Char :=
  (p.reverse.takeWhile (fun c => !(c = '/' || c = '\\'))).reverse

/-- `.replace(/\.[^/.]+$/, '')`: strips a final `.ext` (one or more non-dot,
non-slash characters after a dot at the end). -/
def stripExt (s : List Char) : List Char :=
  let r := s.reverse
  let t := r.takeWhile (fun c => !(c = '.' || c = '/'))
  if t ≠ [] ∧ r.getD t.length ' ' = '.' then (r.drop (t.length + 1)).reverse else s

/-- The extension-stripped base name: `(p.split(/[/\\]/).pop() || 'gif')`
with the extension removed. -/
def baseNameOf (p : List Char) : List Char :=
  stripExt (if lastSegment p = [] then ['g', 'i', 'f'] else lastSegment p)

/-- `_safeBaseFromPath` (src/unnamed/part_002, lines 176-182). -/
def safeBaseFromPath (p : List Char) : List Char := sanitizeBase (baseNameOf p)

/-- Base names in which no decimal digit immediately follows a
non-alphanumeric character; on these the sanitizer is collision-free. -/
def goodNameB : List Char → Bool
  | [] => true
  | [_] => true
  | a :: b :: rest => (isAlnumChar a || !(isDigitChar b)) && goodNameB (b :: rest)

/-- Propositional form of `goodNameB`. -/
def GoodName (s : List Char) : Prop := goodNameB s = true

instance (s : List Char) : Decidable (GoodName s) :=
  inferInstanceAs (Decidable (goodNameB s = true))

theorem goodName_tail {a : Char} {as : List Char} (h : GoodName (a :: as)) :
    GoodName as := by
  cases as with
  | nil => rfl
  | cons b bs =>
    unfold GoodName goodNameB at h
    simp only [Bool.and_eq_true] at h
    exact h.2

theorem goodName_rel {a b : Char} {bs : List Char} (h : GoodName (a :: b :: bs)) :
    isAlnumChar a = true ∨ isDigitChar b = false := by
  unfold GoodName goodNameB at h
  simp only [Bool.and_eq_true, Bool.or_eq_true, Bool.not_eq_true'] at h
  exact h.1

/-- Counterexample to C8: the transform is not collision-free. The distinct
base names `_1` and `η` (U+03B7, code point 951) both sanitize to `_951`:
`_` encodes to `_95` and the literal digit `1` then extends the code. -/
theorem safeBase_collision :
    safeBaseFromPath ("_1.gif".toList) = safeBaseFromPath ("η.gif".toList) ∧
    baseNameOf ("_1.gif".toList) ≠ baseNameOf ("η.gif".toList) := by
  refine ⟨by decide, by decide⟩

theorem decDigitsRev_lt_ten (fuel n : ℕ) : ∀ d ∈ decDigitsRev fuel n, d < 10 := by
  induction fuel generalizing n with
  | zero => intro d hd; simp [decDigitsRev] at hd
  | succ fuel ih =>
    intro d hd
    unfold decDigitsRev at hd
    by_cases hn : n = 0
    · simp [hn] at hd
    · rw [if_neg hn] at hd
      rcases List.mem_cons.1 hd with h | h
      · omega
      · exact ih (n / 10) d h

/-- Recomposition of little-endian decimal digits. -/
def decVal : List ℕ → ℕ
  | [] => 0
  | d :: ds => d + 10 * decVal ds

theorem decVal_decDigitsRev (fuel n : ℕ) (h : n ≤ fuel) :
    decVal (decDigitsRev fuel n) = n := by
  induction fuel generalizing n with
  | zero => interval_cases n; rfl
  | succ fuel ih =>
    unfold decDigitsRev
    by_cases hn : n = 0
    · simp [hn, decVal]
    · rw [if_neg hn]
      unfold decVal
      rw [ih (n / 10) (by omega)]
      omega

theorem digitChar_toNat (d : ℕ) (h : d < 10) : (Char.ofNat (48 + d)).toNat = 48 + d := by
  interval_cases d <;> decide

theorem digitChar_isDigit (d : ℕ) (h : d < 10) : isDigitChar (Char.ofNat (48 + d)) = true := by
  interval_cases d <;> decide

theorem digit_map_inj (l₁ l₂ : List ℕ) (h₁ : ∀ d ∈ l₁, d < 10) (h₂ : ∀ d ∈ l₂, d < 10)
    (h : l₁.map (fun d => Char.ofNat (48 + d)) = l₂.map (fun d => Char.ofNat (48 + d))) :
    l₁ = l₂ := by
  induction l₁ generalizing l₂ with
  | nil => cases l₂ with
    | nil => rfl
    | cons b bs => simp at h
  | cons a as ih =>
    cases l₂ with
    | nil => simp at h
    | cons b bs =>
      simp only [List.map_cons, List.cons.injEq] at h
      have ha : a < 10 := h₁ a (List.mem_cons_self a as)
      have hb : b < 10 := h₂ b (List.mem_cons_self b bs)
      have hab : a = b := by
        have := congrArg Char.toNat h.1
        rw [digitChar_toNat a ha, digitChar_toNat b hb] at this
        omega
      rw [hab, ih bs (fun d hd => h₁ d (List.mem_cons_of_mem a hd))
        (fun d hd => h₂ d (List.mem_cons_of_mem b hd)) h.2]

theorem decStr_digits (n : ℕ) : ∀ c ∈ decStr n, isDigitChar c = true := by
  intro c hc
  unfold decStr at hc
  by_cases hn : n = 0
  · rw [if_pos hn] at hc
    simp at hc
    rw [hc]
    decide
  · rw [if_neg hn] at hc
    rcases List.mem_map.1 hc with ⟨d, hd, hdc⟩
    have : d < 10 := decDigitsRev_lt_ten n n d (List.mem_reverse.1 hd)
    rw [← hdc]
    exact digitChar_isDigit d this

theorem decStr_inj (a b : ℕ) (h : decStr a = decStr b) : a = b := by
  unfold decStr at h
  by_cases ha : a = 0 <;> by_cases hb : b = 0
  · omega
  · rw [if_pos ha, if_neg hb] at h
    have hval : decVal (decDigitsRev b b) = b := decVal_decDigitsRev b b le_rfl
    have : (decDigitsRev b b).reverse.map (fun d => Char.ofNat (48 + d)) = ['0'] := h.symm
    have hrev : (decDigitsRev b b).reverse = [0] := by
      have := digit_map_inj (decDigitsRev b b).reverse [0]
        (fun d hd => decDigitsRev_lt_ten b b d (List.mem_reverse.1 hd))
        (by intro d hd; simp at hd; omega) (by simpa using this)
      simpa using this
    have : decDigitsRev b b = [0] := by
      have := congrArg List.reverse hrev
      simpa using this
    rw [this] at hval
    simp [decVal] at hval
    omega
  · rw [if_neg ha, if_pos hb] at h
    have hval : decVal (decDigitsRev a a) = a := decVal_decDigitsRev a a le_rfl
    have hrev : (decDigitsRev a a).reverse = [0] := by
      have := digit_map_inj (decDigitsRev a a).reverse [0]
        (fun d hd => decDigitsRev_lt_ten a a d (List.mem_reverse.1 hd))
        (by intro d hd; simp at hd; omega) (by simpa using h)
      simpa using this
    have : decDigitsRev a a = [0] := by
      have := congrArg List.reverse hrev
      simpa using this
    rw [this] at hval
    simp [decVal] at hval
    omega
  · rw [if_neg ha, if_neg hb] at h
    have := digit_map_inj (decDigitsRev a a).reverse (decDigitsRev b b).reverse
      (fun d hd => decDigitsRev_lt_ten a a d (List.mem_reverse.1 hd))
      (fun d hd => decDigitsRev_lt_ten b b d (List.mem_reverse.1 hd)) h
    have hdig : decDigitsRev a a = decDigitsRev b b := by
      have := congrArg List.reverse this
      simpa using this
    have hva := decVal_decDigitsRev a a le_rfl
    have hvb := decVal_decDigitsRev b b le_rfl
    rw [hdig] at hva
    omega

theorem digits_append_cancel (xs : List Char) :
    ∀ (ys u v : List Char), (∀ c ∈ xs, isDigitChar c = true) →
    (∀ c ∈ ys, isDigitChar c = true) →
    (∀ c, u.head? = some c → isDigitChar c = false) →
    (∀ c, v.head? = some c → isDigitChar c = false) →
    xs ++ u = ys ++ v → xs = ys ∧ u = v := by
  induction xs with
  | nil =>
    intro ys u v _ hys hu _ heq
    cases ys with
    | nil => exact ⟨rfl, heq⟩
    | cons y ys' =>
      simp only [List.nil_append] at heq
      have hy : isDigitChar y = true := hys y (List.mem_cons_self y ys')
      have : u.head? = some y := by rw [heq]; rfl
      rw [hu y this] at hy
      exact Bool.noConfusion hy
  | cons x xs' ih =>
    intro ys u v hxs hys hu hv heq
    cases ys with
    | nil =>
      simp only [List.nil_append] at heq
      have hx : isDigitChar x = true := hxs x (List.mem_cons_self x xs')
      have : v.head? = some x := by rw [← heq]; rfl
      rw [hv x this] at hx
      exact Bool.noConfusion hx
    | cons y ys' =>
      simp only [List.cons_append, List.cons.injEq] at heq
      obtain ⟨hxy, heq'⟩ := heq
      have := ih ys' u v (fun c hc => hxs c (List.mem_cons_of_mem x hc))
        (fun c hc => hys c (List.mem_cons_of_mem y hc)) hu hv heq'
      exact ⟨by rw [hxy, this.1], this.2⟩

theorem sanitize_head_not_digit (as : List Char)
    (h : ∀ c, as.head? = some c → isDigitChar c = false) :
    ∀ c, (sanitizeBase as).head? = some c → isDigitChar c = false := by
  cases as with
  | nil => intro c hc; simp [sanitizeBase] at hc
  | cons a as' =>
    intro c hc
    have : sanitizeBase (a :: as') = encodeChar a ++ sanitizeBase as' := by
      simp [sanitizeBase]
    rw [this] at hc
    unfold encodeChar at hc
    by_cases ha : isAlnumChar a
    · rw [if_pos ha] at hc
      simp only [List.cons_append, List.head?_cons, Option.some.injEq] at hc
      rw [← hc]
      exact h a rfl
    · rw [if_neg ha] at hc
      simp only [List.cons_append, List.head?_cons, Option.some.injEq] at hc
      rw [← hc]
      decide

theorem char_toNat_inj (a b : Char) (h : a.toNat = b.toNat) : a = b :=
  Char.ext (UInt32.ext h)

theorem sanitizeBase_inj (s : List Char) :
    ∀ t : List Char, GoodName s → GoodName t →
    sanitizeBase s = sanitizeBase t → s = t := by
  induction s with
  | nil =>
    intro t _ _ heq
    cases t with
    | nil => rfl
    | cons b bs =>
      have : sanitizeBase (b :: bs) = encodeChar b ++ sanitizeBase bs := by
        simp [sanitizeBase]
      rw [this] at heq
      unfold encodeChar at heq
      by_cases hb : isAlnumChar b
      · rw [if_pos hb] at heq
        simp [sanitizeBase] at heq
      · rw [if_neg hb] at heq
        simp [sanitizeBase] at heq
  | cons a as ih =>
    intro t hgs hgt heq
    cases t with
    | nil =>
      have : sanitizeBase (a :: as) = encodeChar a ++ sanitizeBase as := by
        simp [sanitizeBase]
      rw [this] at heq
      unfold encodeChar at heq
      by_cases ha : isAlnumChar a
      · rw [if_pos ha] at heq
        simp [sanitizeBase] at heq
      · rw [if_neg ha] at heq
        simp [sanitizeBase] at heq
    | cons b bs =>
      have hsa : sanitizeBase (a :: as) = encodeChar a ++ sanitizeBase as := by
        simp [sanitizeBase]
      have hsb : sanitizeBase (b :: bs) = encodeChar b ++ sanitizeBase bs := by
        simp [sanitizeBase]
      rw [hsa, hsb] at heq
      have hgas : GoodName as := goodName_tail hgs
      have hgbs : GoodName bs := goodName_tail hgt
      unfold encodeChar at heq
      by_cases ha : isAlnumChar a <;> by_cases hb : isAlnumChar b
      · rw [if_pos ha, if_pos hb] at heq
        simp only [List.cons_append, List.cons.injEq] at heq
        rw [heq.1, ih bs hgas hgbs heq.2]
      · rw [if_pos ha, if_neg hb] at heq
        simp only [List.cons_append, List.cons.injEq] at heq
        rw [heq.1] at ha
        exact absurd ha (by decide)
      · rw [if_neg ha, if_pos hb] at heq
        simp only [List.cons_append, List.cons.injEq] at heq
        rw [← heq.1] at hb
        exact absurd hb (by decide)
      · rw [if_neg ha, if_neg hb] at heq
        simp only [List.cons_append, List.cons.injEq, true_and] at heq
        have hheada : ∀ c, as.head? = some c → isDigitChar c = false := by
          intro c hc
          cases as with
          | nil => simp at hc
          | cons a' as' =>
            simp only [List.head?_cons, Option.some.injEq] at hc
            rcases goodName_rel hgs with h | h
            · exact absurd h ha
            · rw [← hc]; exact h
        have hheadb : ∀ c, bs.head? = some c → isDigitChar c = false := by
          intro c hc
          cases bs with
          | nil => simp at hc
          | cons b' bs' =>
            simp only [List.head?_cons, Option.some.injEq] at hc
            rcases goodName_rel hgt with h | h
            · exact absurd h hb
            · rw [← hc]; exact h
        have := digits_append_cancel (decStr a.toNat) (decStr b.toNat)
          (sanitizeBase as) (sanitizeBase bs)
          (decStr_digits a.toNat) (decStr_digits b.toNat)
          (sanitize_head_not_digit as hheada) (sanitize_head_not_digit bs hheadb) heq
        have hab : a = b := char_toNat_inj a b (decStr_inj a.toNat b.toNat this.1)
        rw [hab, ih bs hgas hgbs this.2]

/-- C8 as amended: `_safeBaseFromPath` keeps every `[0-9A-Za-z]` character of
the extension-stripped base name and replaces every other character by `_`
followed by its decimal code point; but the transform is only collision-free
on base names in which no decimal digit immediately follows a
non-alphanumeric character — in general distinct base names can collide
(e.g. `_1` and `η` both map to `_951`). -/
theorem safeBase_transform (p q : List Char) :
    (∀ c s, isAlnumChar c = true → sanitizeBase (c :: s) = c :: sanitizeBase s) ∧
    (∀ c s, isAlnumChar c = false →
      sanitizeBase (c :: s) = '_' :: (decStr c.toNat ++ sanitizeBase s)) ∧
    (GoodName (baseNameOf p) → GoodName (baseNameOf q) →
      safeBaseFromPath p = safeBaseFromPath q → baseNameOf p = baseNameOf q) := by
  refine ⟨?_, ?_, ?_⟩
  · intro c s hc
    simp [sanitizeBase, encodeChar, hc]
  · intro c s hc
    simp [sanitizeBase, encodeChar, hc]
  · intro hp hq h
    exact sanitizeBase_inj (baseNameOf p) (baseNameOf q) hp hq h

/-- Witness for the amended C8: two paths in different directories with the
same good base name sanitize identically, and the theorem recovers equality
of base names. -/
theorem safeBase_transform_witness :
    baseNameOf ("a/cat.gif".toList) = baseNameOf ("b\\cat.gif".toList) :=
  (safeBase_transform ("a/cat.gif".toList) ("b\\cat.gif".toList)).2.2
    (by decide) (by decide) (by decide)

/-! ## The player's preload cache (src/unnamed/part_000)

The cache is a JavaScript `Map` from frame index to image; `Map` iteration
follows insertion order, so it is modelled as a list of
`(frameIndex, imageSrc)` pairs whose head is the oldest entry. Insertions
happen on two paths: `preloadFrames` (lines 71-133), which skips present
keys, inserts, and evicts the first key with one `revokeObjectURL` when the
size exceeds 20; and `renderFrame` (lines 145-217), which on a cache miss
inserts the loaded image with no capacity check. -/

/-- JavaScript `s.startsWith(pre)` (kernel-computable model). -/
def jsStartsWith (s pre : String) : Bool := pre.toList.isPrefixOf s.toList

/-- One cache-insert operation, tagged by which code path performed it. -/
inductive CacheOp where
  | preload (idx : ℕ) (src : String)
  | render (idx : ℕ) (src : String)
deriving Repr, DecidableEq

/-- The `img.onload` body of `preloadFrames`: insert, then if `size > 20`
evict the first (oldest) key, revoking its blob URL once. Returns the new
cache and the list of URLs revoked by this insertion. The enclosing loop
skips an index already present (the in-flight `preloadingRef` set only
dedupes concurrent loads and never holds entries at insertion time). -/
def preloadInsert (cache : List (ℕ × String)) (idx : ℕ) (src : String) :
    List (ℕ × String) × List String :=
  if cache.any (fun e => e.1 = idx) then (cache, [])
  else
    let c1 := cache ++ [(idx, src)]
    if 20 < c1.length then
      match c1 with
      | [] => (c1, [])
      | (_, oldSrc) :: rest =>
        (rest, if jsStartsWith oldSrc "blob:" then [oldSrc] else [])
    else (c1, [])

/-- The cache insertion in `renderFrame` (line 193): reached only on a cache
miss (a hit returns before loading), and performs no capacity check. -/
def renderInsert (cache : List (ℕ × String)) (idx : ℕ) (src : String) :
    List (ℕ × String) :=
  if cache.any (fun e => e.1 = idx) then cache else cache ++ [(idx, src)]

/-- Run a sequence of cache inserts from a starting cache, collecting the
revoked URLs. -/
def runCacheOps (cache : List (ℕ × String)) (log : List String) :
    List CacheOp → List (ℕ × String) × List String
  | [] => (cache, log)
  | .preload idx src :: ops =>
    let (c', r) := preloadInsert cache idx src
    runCacheOps c' (log ++ r) ops
  | .render idx src :: ops => runCacheOps (renderInsert cache idx src) log ops

/-- Twenty-one distinct preload inserts followed by one render-path insert. -/
def cacheOverflowOps : List CacheOp :=
  ((List.range 20).map (fun i => CacheOp.preload i ("blob:" ++ toString i))) ++
  [CacheOp.render 20 "blob:20"]

/-- Counterexample to C1: the cache does not stay within 20 entries for every
insertion sequence. Twenty preload-path inserts followed by one render-path
insert (which has no capacity check) leave 21 entries and revoke nothing. -/
theorem preload_cache_exceeds_capacity :
    (runCacheOps [] [] cacheOverflowOps).1.length = 21 ∧
    (runCacheOps [] [] cacheOverflowOps).2 = [] := by
  refine ⟨by decide, by decide⟩

theorem preloadInsert_bounded (cache : List (ℕ × String)) (idx : ℕ) (src : String)
    (h : cache.length ≤ 20) : (preloadInsert cache idx src).1.length ≤ 20 := by
  unfold preloadInsert
  by_cases hmem : cache.any (fun e => e.1 = idx)
  · rw [if_pos hmem]
    exact h
  · rw [if_neg hmem]
    by_cases hlen : 20 < (cache ++ [(idx, src)]).length
    · rw [if_pos hlen]
      cases hc : cache ++ [(idx, src)] with
      | nil => simp
      | cons e rest =>
        have : (cache ++ [(idx, src)]).length = cache.length + 1 := by simp
        rw [hc] at this
        simp only [List.length_cons] at this
        simp only
        omega
    · rw [if_neg hlen]
      simp only [List.length_append, List.length_cons, List.length_nil] at hlen ⊢
      omega

theorem preloadInsert_evicts_oldest (cache : List (ℕ × String)) (idx : ℕ)
    (src oldSrc : String) (rest : List (ℕ × String)) (oldIdx : ℕ)
    (hc : cache = (oldIdx, oldSrc) :: rest)
    (hlen : cache.length = 20)
    (hmem : cache.any (fun e => e.1 = idx) = false)
    (hblob : jsStartsWith oldSrc "blob:" = true) :
    preloadInsert cache idx src = (rest ++ [(idx, src)], [oldSrc]) := by
  unfold preloadInsert
  simp only [hmem, Bool.false_eq_true, if_false]
  have h21 : 20 < (cache ++ [(idx, src)]).length := by simp [hlen]
  rw [if_pos h21, hc]
  simp only [List.cons_append]
  rw [hblob]
  rfl

/-- The spec's concrete scenario: sequential preload-path inserts for
indices 0..24. -/
def cacheSeq25 : List CacheOp :=
  (List.range 25).map (fun i => CacheOp.preload i ("blob:" ++ toString i))

/-- C1 as amended: insertions through the preload path keep the cache at no
more than 20 entries; the insertion that would exceed capacity evicts exactly
the oldest entry and revokes its blob URL exactly once; after sequential
preload inserts for indices 0..24 the cache holds exactly 5..24 and blob URLs
0..4 were each revoked once. But insertions through `renderFrame`'s
miss path perform no capacity check, so mixed sequences can exceed 20
entries. -/
theorem preload_cache_bounded (cache : List (ℕ × String)) (idx : ℕ)
    (src : String) :
    (cache.length ≤ 20 → (preloadInsert cache idx src).1.length ≤ 20) ∧
    (∀ oldIdx oldSrc rest, cache = (oldIdx, oldSrc) :: rest →
      cache.length = 20 → cache.any (fun e => e.1 = idx) = false →
      jsStartsWith oldSrc "blob:" = true →
      preloadInsert cache idx src = (rest ++ [(idx, src)], [oldSrc])) ∧
    ((runCacheOps [] [] cacheSeq25).1.map Prod.fst = (List.range 20).map (· + 5) ∧
      (runCacheOps [] [] cacheSeq25).2 =
        ["blob:0", "blob:1", "blob:2", "blob:3", "blob:4"]) := by
  refine ⟨preloadInsert_bounded cache idx src, ?_, by decide, by decide⟩
  intro oldIdx oldSrc rest hc hlen hmem hblob
  exact preloadInsert_evicts_oldest cache idx src oldSrc rest oldIdx hc hlen hmem hblob

/-- Witness for the amended C1 at a concrete full cache. -/
theorem preload_cache_bounded_witness :
    preloadInsert ((List.range 20).map (fun i => (i, "blob:" ++ toString i))) 20 "blob:20"
      = (((List.range 19).map (fun i => (i + 1, "blob:" ++ toString (i + 1)))) ++ [(20, "blob:20")],
         ["blob:0"]) := by
  have h := (preload_cache_bounded
    ((List.range 20).map (fun i => (i, "blob:" ++ toString i))) 20 "blob:20").2.1
    0 "blob:0" ((List.range 19).map (fun i => (i + 1, "blob:" ++ toString (i + 1))))
    (by decide) (by decide) (by decide) (by decide)
  exact h

/-! ## The extract-progress listener and its auto-pause
(src/unnamed/part_002, lines 1019-1061)

The listener keeps `autoPauseTriggeredRef` (created once when the listener is
mounted, with empty dependency array) and on each `extract-progress` event
updates the per-stage progress, then — independently of the stage — issues
one `pause_extraction` when `total > 1000 && current >= 1000` and the ref is
still false, setting the ref so it never fires again. The points in the code
that start a new extraction job (part_002 lines 1475-1481, 1896-1900) reset
the extract progress, `isExtractPaused` and the `hasAutoPassedOnce` state
(whose value is never read), but do NOT reset `autoPauseTriggeredRef`. -/

structure ExtractState where
  triggered : Bool
  ffCur : ℕ
  ffTot : ℕ
  pvCur : ℕ
  pvTot : ℕ
  paused : Bool
  pauseCmds : ℕ
deriving Repr, DecidableEq

inductive ExtractEvent where
  | progress (stage : String) (current total : ℕ)
  | newJob
  | manualPause
  | manualResume
deriving Repr, DecidableEq

/-- The initial listener state at mount. -/
def extractInit : ExtractState :=
  { triggered := false, ffCur := 0, ffTot := 0, pvCur := 0, pvTot := 0,
    paused := false, pauseCmds := 0 }

/-- One step of the listener/new-job/manual-control state machine. -/
def extractStep (st : ExtractState) (ev : ExtractEvent) : ExtractState :=
  match ev with
  | .progress stage current total =>
    let st :=
      if stage = "fullframes" then { st with ffCur := current, ffTot := total }
      else if stage = "previews" then { st with pvCur := current, pvTot := total }
      else st
    if 1000 < total ∧ 1000 ≤ current ∧ st.triggered = false then
      { st with triggered := true, paused := true, pauseCmds := st.pauseCmds + 1 }
    else st
  | .newJob =>
    { st with ffCur := 0, ffTot := 0, pvCur := 0, pvTot := 0, paused := false }
  | .manualPause => { st with paused := true, pauseCmds := st.pauseCmds + 1 }
  | .manualResume => { st with paused := false }

/-- Run the listener over a trace of events from the mount state. -/
def extractRun (evs : List ExtractEvent) : ExtractState :=
  evs.foldl extractStep extractInit

/-- The first job's crossing of the threshold. -/
def jobOneCross : List ExtractEvent := [.progress "fullframes" 1000 1500]

/-- First job crossing, manual resume and a re-crossing in the same job. -/
def jobOneRecross : List ExtractEvent :=
  jobOneCross ++ [.manualResume, .progress "fullframes" 1200 1500]

/-- ... then a second, distinct 1500-frame job crossing the threshold. -/
def jobTwoCross : List ExtractEvent :=
  jobOneRecross ++ [.newJob, .progress "fullframes" 1000 1500]

/-- C2, evaluated at the failing trace. The first crossing of 1000 in a
1500-frame job auto-pauses exactly once, and a re-crossing in the same job
does not re-trigger — as claimed. But after a new job begins (which resets
progress, the pause flag and the never-read `hasAutoPassedOnce` state, yet
not `autoPauseTriggeredRef`), the second job's crossing of 1000 does NOT
auto-pause: no new pause command is issued and the job is left running,
contradicting the claim that a later, distinct job can auto-pause again. -/
theorem autopause_never_rearms :
    (extractRun jobOneCross).paused = true ∧
    (extractRun jobOneCross).pauseCmds = 1 ∧
    (extractRun jobOneRecross).pauseCmds = 1 ∧
    (extractRun jobTwoCross).paused = false ∧
    (extractRun jobTwoCross).pauseCmds = 1 ∧
    (extractRun jobTwoCross).ffCur = 1000 ∧
    (extractRun jobTwoCross).ffTot = 1500 := by
  refine ⟨by decide, by decide, by decide, by decide, by decide, by decide, by decide⟩

/-! ## The version-switch handler (src/unnamed/part_002, lines 3548-3641)

`handleSelectVersion` returns early when the id is unchanged and not forced;
otherwise it awaits `cancel_extraction` first and only later starts the new
extraction (`extract_fullframes_background`, `extract_previews_background`).
The `GifPlayer` holding the preload cache is rendered without a version-keyed
`key`, so a version switch does not remount it, and its cache-clearing
cleanup (part_000 lines 269-280) runs only on unmount: the handler never
touches the preload cache. -/

structure AppState where
  currentVersionId : String
  cache : List (ℕ × String)
deriving Repr, DecidableEq

/-- The backend commands `handleSelectVersion` issues, in order, and the new
app state. The preload cache belongs to the still-mounted `GifPlayer` and is
carried over unchanged. -/
def handleSelectVersion (st : AppState) (versionId : String) (force : Bool) :
    AppState × List String :=
  if versionId = st.currentVersionId ∧ force = false then (st, [])
  else
    ({ currentVersionId := versionId, cache := st.cache },
     ["cancel_extraction", "parse_gif_preview", "extract_fullframes_background",
      "extract_previews_background", "resume_extraction"])

/-- `renderFrame`'s cache-hit path: a frame is served straight from the
preload cache when its index is present. -/
def serveFrame (st : AppState) (idx : ℕ) : Option String :=
  (st.cache.find? (fun e => e.1 = idx)).map Prod.snd

/-- A state in which version A is active and the player has cached version
A's frame 0. -/
def stateWithACache : AppState :=
  { currentVersionId := "A", cache := [(0, "blob:A-frame0")] }

/-- Counterexample to C9: switching the active version does not clear the
player's preload cache. After switching from version A to version B, frame
index 0 is still served from version A's cached image. -/
theorem select_version_stale_cache :
    (handleSelectVersion stateWithACache "B" false).1.cache = [(0, "blob:A-frame0")] ∧
    serveFrame (handleSelectVersion stateWithACache "B" false).1 0 = some "blob:A-frame0" ∧
    (handleSelectVersion stateWithACache "B" false).1.currentVersionId = "B" := by
  refine ⟨by decide, by decide, by decide⟩

/-- C9 as amended: switching to a different version id cancels the running
extraction before the fresh extraction is started (the command trace issues
`cancel_extraction` strictly before `extract_fullframes_background`), and the
newly selected version becomes current — but the in-memory preload cache is
NOT cleared (it is carried over unchanged; it is only cleared when the player
unmounts), so an image cached for the previous version can still be served
for a frame index of the new one. -/
theorem select_version_cancels_before_start (st : AppState) (versionId : String)
    (hdiff : versionId ≠ st.currentVersionId) :
    (handleSelectVersion st versionId false).2.indexOf "cancel_extraction" = 0 ∧
    (handleSelectVersion st versionId false).2.indexOf "extract_fullframes_background" = 2 ∧
    (handleSelectVersion st versionId false).1.currentVersionId = versionId ∧
    (handleSelectVersion st versionId false).1.cache = st.cache := by
  unfold handleSelectVersion
  rw [if_neg (fun h => hdiff h.1)]
  refine ⟨?_, ?_, rfl, rfl⟩
  · rfl
  · rfl

/-- Witness for the amended C9 at the concrete A-to-B switch. -/
theorem select_version_cancels_before_start_witness :
    (handleSelectVersion stateWithACache "B" false).2.indexOf "cancel_extraction" = 0 ∧
    (handleSelectVersion stateWithACache "B" false).2.indexOf "extract_fullframes_background" = 2 ∧
    (handleSelectVersion stateWithACache "B" false).1.currentVersionId = "B" ∧
    (handleSelectVersion stateWithACache "B" false).1.cache = [(0, "blob:A-frame0")] :=
  select_version_cancels_before_start stateWithACache "B" (by decide)

/-! ## The frame-rate-reduction preview `fpsPreview`
(src/unnamed/part_002, lines 347-442)

The simulation walks the frame list: a frame whose delay is at least the
threshold is kept as is; a faster frame starts a merge group that absorbs up
to `keepInterval - 1` further consecutive fast frames, emitting one frame
whose delay is the group's accumulated delay capped at 65535. The recursion
is fuelled by the list length (each step consumes at least one frame), which
keeps it structural. -/

/-- The inner look-ahead loop: starting after a fast frame, accumulate up to
`j` further consecutive delays below the threshold; returns the accumulated
extra delay and the number of extra frames consumed. -/
def fpsAccum (thr : ℕ) : ℕ → List ℕ → ℕ × ℕ
  | 0, _ => (0, 0)
  | _ + 1, [] => (0, 0)
  | j + 1, d :: rest =>
    if d < thr then
      let p := fpsAccum thr j rest
      (d + p.1, p.2 + 1)
    else (0, 0)

/-- The outer while loop of `fpsPreview`, fuelled by the list length. -/
def fpsGo (thr k : ℕ) : ℕ → List ℕ → List ℕ
  | 0, _ => []
  | _ + 1, [] => []
  | fuel + 1, d :: rest =>
    if thr ≤ d then d :: fpsGo thr k fuel rest
    else
      min (d + (fpsAccum thr (k - 1) rest).1) 65535 ::
        fpsGo thr k fuel (rest.drop (fpsAccum thr (k - 1) rest).2)

/-- `fpsPreview`'s `newDelays` for input delays `ds`, delay threshold `thr`
and keep-interval `k`. -/
def fpsNewDelays (thr k : ℕ) (ds : List ℕ) : List ℕ := fpsGo thr k ds.length ds

/-- Whether no merge group's accumulated delay exceeds the 65535 cap. -/
def fpsNoCapB (thr k : ℕ) : ℕ → List ℕ → Bool
  | 0, _ => true
  | _ + 1, [] => true
  | fuel + 1, d :: rest =>
    if thr ≤ d then fpsNoCapB thr k fuel rest
    else
      decide (d + (fpsAccum thr (k - 1) rest).1 ≤ 65535) &&
        fpsNoCapB thr k fuel (rest.drop (fpsAccum thr (k - 1) rest).2)

/-- No merge group of `fpsPreview` hits the 65535 cap on `ds`. -/
def fpsNoCapHit (thr k : ℕ) (ds : List ℕ) : Prop :=
  fpsNoCapB thr k ds.length ds = true

instance (thr k : ℕ) (ds : List ℕ) : Decidable (fpsNoCapHit thr k ds) :=
  inferInstanceAs (Decidable (fpsNoCapB thr k ds.length ds = true))

theorem fpsAccum_spec (thr : ℕ) : ∀ (j : ℕ) (rest : List ℕ),
    (fpsAccum thr j rest).2 ≤ rest.length ∧
    (fpsAccum thr j rest).1 = (rest.take (fpsAccum thr j rest).2).sum := by
  intro j
  induction j with
  | zero => intro rest; simp [fpsAccum]
  | succ j ih =>
    intro rest
    cases rest with
    | nil => simp [fpsAccum]
    | cons d rest' =>
      unfold fpsAccum
      by_cases hd : d < thr
      · rw [if_pos hd]
        have := ih rest'
        simp only
        constructor
        · simp only [List.length_cons]; omega
        · rw [List.take_succ_cons, List.sum_cons, this.2]
      · rw [if_neg hd]
        simp

theorem fpsGo_fuel_indep (thr k : ℕ) : ∀ (fuel fuel' : ℕ) (ds : List ℕ),
    ds.length ≤ fuel → ds.length ≤ fuel' →
    fpsGo thr k fuel ds = fpsGo thr k fuel' ds := by
  intro fuel
  induction fuel with
  | zero =>
    intro fuel' ds h h'
    have : ds = [] := List.eq_nil_of_length_eq_zero (by omega)
    subst this
    cases fuel' <;> rfl
  | succ fuel ih =>
    intro fuel' ds h h'
    cases ds with
    | nil => cases fuel' <;> rfl
    | cons d rest =>
      cases fuel' with
      | zero => simp at h'
      | succ fuel'' =>
        simp only [List.length_cons] at h h'
        unfold fpsGo
        by_cases hd : thr ≤ d
        · rw [if_pos hd, if_pos hd, ih fuel'' rest (by omega) (by omega)]
        · rw [if_neg hd, if_neg hd]
          have hdrop : (rest.drop (fpsAccum thr (k - 1) rest).2).length ≤ rest.length := by
            simp [List.length_drop]
          rw [ih fuel'' (rest.drop (fpsAccum thr (k - 1) rest).2) (by omega) (by omega)]

theorem fpsGo_length (thr k : ℕ) : ∀ (fuel : ℕ) (ds : List ℕ),
    ds.length ≤ fuel → (fpsGo thr k fuel ds).length ≤ ds.length := by
  intro fuel
  induction fuel with
  | zero => intro ds h; simp [fpsGo]
  | succ fuel ih =>
    intro ds h
    cases ds with
    | nil => simp [fpsGo]
    | cons d rest =>
      simp only [List.length_cons] at h
      unfold fpsGo
      by_cases hd : thr ≤ d
      · rw [if_pos hd]
        have := ih rest (by omega)
        simp only [List.length_cons]
        omega
      · rw [if_neg hd]
        have hdl : (rest.drop (fpsAccum thr (k - 1) rest).2).length ≤ rest.length := by
          simp [List.length_drop]
        have := ih (rest.drop (fpsAccum thr (k - 1) rest).2) (by omega)
        simp only [List.length_cons]
        omega

theorem fpsGo_cap (thr k : ℕ) : ∀ (fuel : ℕ) (ds : List ℕ),
    ds.length ≤ fuel → ∀ x ∈ fpsGo thr k fuel ds,
    x ≤ 65535 ∨ (x ∈ ds ∧ thr ≤ x) := by
  intro fuel
  induction fuel with
  | zero => intro ds h x hx; simp [fpsGo] at hx
  | succ fuel ih =>
    intro ds h x hx
    cases ds with
    | nil => simp [fpsGo] at hx
    | cons d rest =>
      simp only [List.length_cons] at h
      unfold fpsGo at hx
      by_cases hd : thr ≤ d
      · rw [if_pos hd] at hx
        rcases List.mem_cons.1 hx with hx | hx
        · exact Or.inr ⟨by rw [hx]; exact List.mem_cons_self d rest, by rw [hx]; exact hd⟩
        · rcases ih rest (by omega) x hx with h' | h'
          · exact Or.inl h'
          · exact Or.inr ⟨List.mem_cons_of_mem d h'.1, h'.2⟩
      · rw [if_neg hd] at hx
        rcases List.mem_cons.1 hx with hx | hx
        · exact Or.inl (by rw [hx]; exact Nat.min_le_right _ _)
        · have hdl : (rest.drop (fpsAccum thr (k - 1) rest).2).length ≤ rest.length := by
            simp [List.length_drop]
          rcases ih (rest.drop (fpsAccum thr (k - 1) rest).2) (by omega) x hx with h' | h'
          · exact Or.inl h'
          · exact Or.inr ⟨List.mem_cons_of_mem d (List.drop_subset _ _ h'.1), h'.2⟩

theorem fpsGo_sum (thr k : ℕ) : ∀ (fuel : ℕ) (ds : List ℕ),
    ds.length ≤ fuel → fpsNoCapB thr k fuel ds = true →
    (fpsGo thr k fuel ds).sum = ds.sum := by
  intro fuel
  induction fuel with
  | zero =>
    intro ds h _
    have : ds = [] := List.eq_nil_of_length_eq_zero (by omega)
    subst this
    rfl
  | succ fuel ih =>
    intro ds h hcap
    cases ds with
    | nil => rfl
    | cons d rest =>
      simp only [List.length_cons] at h
      unfold fpsGo
      unfold fpsNoCapB at hcap
      by_cases hd : thr ≤ d
      · rw [if_pos hd] at hcap ⊢
        simp only [List.sum_cons]
        rw [ih rest (by omega) hcap]
      · rw [if_neg hd] at hcap ⊢
        simp only [Bool.and_eq_true, decide_eq_true_eq] at hcap
        have hspec := fpsAccum_spec thr (k - 1) rest
        have hdl : (rest.drop (fpsAccum thr (k - 1) rest).2).length ≤ rest.length := by
          simp [List.length_drop]
        simp only [List.sum_cons]
        rw [Nat.min_eq_left hcap.1, ih _ (by omega) hcap.2]
        have hsplit : (rest.take (fpsAccum thr (k - 1) rest).2).sum +
            (rest.drop (fpsAccum thr (k - 1) rest).2).sum = rest.sum := by
          rw [← List.sum_append, List.take_append_drop]
        rw [hspec.2] at *
        omega

/-- C10: properties of `fpsPreview`'s frame-merging simulation. A frame whose
delay is at least the threshold is passed through unchanged; the output never
has more frames than the input; every output delay is either capped at 65535
(merged groups) or is a verbatim slow input frame; and when no merge group's
accumulated delay exceeds 65535, the total duration is preserved exactly. -/
theorem fps_preview_props (thr k : ℕ) (ds : List ℕ) :
    (∀ d rest, thr ≤ d → fpsNewDelays thr k (d :: rest) = d :: fpsNewDelays thr k rest) ∧
    (fpsNewDelays thr k ds).length ≤ ds.length ∧
    (∀ x ∈ fpsNewDelays thr k ds, x ≤ 65535 ∨ (x ∈ ds ∧ thr ≤ x)) ∧
    (fpsNoCapHit thr k ds → (fpsNewDelays thr k ds).sum = ds.sum) := by
  refine ⟨?_, ?_, ?_, ?_⟩
  · intro d rest hd
    unfold fpsNewDelays
    simp only [List.length_cons]
    simp only [fpsGo]
    rw [if_pos hd]
  · exact fpsGo_length thr k ds.length ds le_rfl
  · exact fpsGo_cap thr k ds.length ds le_rfl
  · exact fpsGo_sum thr k ds.length ds le_rfl

/-- Witness for C10 at the concrete input `[30, 30, 200]` with threshold 100
and keep-interval 2: the two fast frames merge to 60, the slow frame is kept,
and the 260 ms total is preserved. -/
theorem fps_preview_props_witness :
    fpsNewDelays 100 2 [30, 30, 200] = [60, 200] ∧
    (fpsNewDelays 100 2 [30, 30, 200]).sum = 260 ∧
    fpsNoCapHit 100 2 [30, 30, 200] ∧
    (fpsNewDelays 100 2 [30, 30, 200]).sum = ([30, 30, 200] : List ℕ).sum := by
  refine ⟨by decide, by decide, by decide,
    (fps_preview_props 100 2 [30, 30, 200]).2.2.2 (by decide)⟩

/-! ## The speed-adjustment algorithm
(src/unnamed/part_002, lines 3375-3403 in `applyChanges`, and identically
lines 1271-1296 in `generatePreviewGif`)

`frameDelays.slice(rangeStart, rangeEnd + 1)` sums the in-range delays; when
the requested target is positive and differs from the current sum, each
in-range delay is scaled by `ratio = target / current`, rounded
(`Math.round`), clamped to the 10 ms floor, and the residual is distributed
±1 ms per frame over at most two passes that never take a frame below 10 ms.
JavaScript number arithmetic in the scaling is modelled by exact rationals;
`Math.round` is `⌊x + 1/2⌋`. -/

/-- `Math.round` for nonnegative values. -/
def jsRound (x : ℚ) : ℤ := ⌊x + 1 / 2⌋

/-- `frames.slice(s, e + 1)` summed: the current range sum. -/
def rSum (l : List ℕ) (s e : ℕ) : ℕ := ((l.drop s).take (e + 1 - s)).sum

/-- `Math.max(10, Math.round(d * ratio))` with `ratio = t / c`. For `c > 0`
the round `⌊d·t/c + 1/2⌋` equals the integer division `(2·d·t + c) / (2·c)`,
which is the form used here so the definition computes in the kernel;
`scaleFun_eq_jsRound` below proves the identity with the `Math.round` form. -/
def scaleFun (t c d : ℕ) : ℕ :=
  max 10 ((2 * d * t + c) / (2 * c))

/-- `frameDelays.map((d, i) => i in range ? scaleFun d : d)`, position `i`
threaded through. -/
def scaleGo (s e t c : ℕ) (i : ℕ) : List ℕ → List ℕ
  | [] => []
  | d :: rest =>
    (if s ≤ i ∧ i ≤ e then scaleFun t c d else d) :: scaleGo s e t c (i + 1) rest

/-- The scaled-and-floored delay list. -/
def scaleDelays (l : List ℕ) (s e t c : ℕ) : List ℕ := scaleGo s e t c 0 l

/-- One residual-distribution pass: `for (i = rangeStart; i <= rangeEnd &&
diff > 0; i++)`, fuelled by the number of remaining indices; each step either
adjusts `frameDelays[i]` by `dir` and decrements the remaining residual, or
(going down) skips a frame that would fall below 10. -/
def distPass (dir : ℤ) : ℕ → ℕ → List ℕ → ℕ → List ℕ × ℕ
  | _, 0, l, diff => (l, diff)
  | i, fuel + 1, l, diff =>
    if diff = 0 then (l, diff)
    else
      if dir < 0 ∧ ((l.getD i 0 : ℤ) + dir) < 10 then distPass dir (i + 1) fuel l diff
      else distPass dir (i + 1) fuel (l.set i ((l.getD i 0 : ℤ) + dir).toNat) (diff - 1)

/-- The scaled list for target `t` (with `c` the current range sum). -/
def scaledOf (l : List ℕ) (s e t : ℕ) : List ℕ :=
  scaleDelays l s e t (rSum l s e)

/-- `diff = targetSum - newRangeSum` after scaling. -/
def diffOf (l : List ℕ) (s e t : ℕ) : ℤ :=
  (t : ℤ) - (rSum (scaledOf l s e t) s e : ℤ)

/-- The two residual passes (`for pass < 2`). -/
def twoPasses (dir : ℤ) (s e : ℕ) (l0 : List ℕ) (dabs : ℕ) : List ℕ :=
  (distPass dir s (e + 1 - s) (distPass dir s (e + 1 - s) l0 dabs).1
    (distPass dir s (e + 1 - s) l0 dabs).2).1

/-- The speed-tab delay adjustment: scale, round, clamp to the 10 ms floor,
then distribute the residual. Outside the `targetSum > 0 && targetSum !==
currentRangeSum` guard the delays are returned unchanged. -/
def speedAdjust (l : List ℕ) (s e t : ℕ) : List ℕ :=
  if 0 < t ∧ t ≠ rSum l s e then
    if diffOf l s e t = 0 then scaledOf l s e t
    else twoPasses (if 0 < diffOf l s e t then 1 else -1) s e (scaledOf l s e t)
      (diffOf l s e t).natAbs
  else l

/-- Counterexample to C7: a positive target that the 10 ms floor makes
unreachable. With delays `[100, 100, 100]`, range `[0, 2]` (current sum 300)
and requested target 3, each frame scales to `max(10, round(1)) = 10`; the
residual is −27 but no frame may drop below 10, so the result `[10, 10, 10]`
sums to 30, not the requested 3. -/
theorem speed_adjust_misses_target :
    speedAdjust [100, 100, 100] 0 2 3 = [10, 10, 10] ∧
    rSum (speedAdjust [100, 100, 100] 0 2 3) 0 2 = 30 ∧
    rSum [100, 100, 100] 0 2 = 300 := by
  refine ⟨by decide, by decide, by decide⟩

/-- The integer-division form of `scaleFun` agrees with the `Math.round`
form `max 10 ⌊d·(t/c) + 1/2⌋` whenever the current range sum is positive. -/
theorem scaleFun_eq_jsRound (t c d : ℕ) (hc : 0 < c) :
    (scaleFun t c d : ℤ) = max 10 (jsRound ((d : ℚ) * ((t : ℚ) / (c : ℚ)))) := by
  have hcq : (c : ℚ) ≠ 0 := Nat.cast_ne_zero.2 hc.ne'
  have h1 : (d : ℚ) * ((t : ℚ) / (c : ℚ)) + 1 / 2
      = ((2 * d * t + c : ℕ) : ℚ) / ((2 * c : ℕ) : ℚ) := by
    push_cast
    field_simp
    ring
  unfold scaleFun jsRound
  rw [h1, Rat.floor_natCast_div_natCast]
  push_cast [Int.ofNat_div]
  rfl

theorem take_set_of_le {α : Type} (l : List α) (i j : ℕ) (v : α) (h : j ≤ i) :
    (l.set i v).take j = l.take j := by
  induction l generalizing i j with
  | nil => simp
  | cons a rest ih =>
    cases i with
    | zero =>
      have : j = 0 := by omega
      simp [this]
    | succ i' =>
      cases j with
      | zero => simp
      | succ j' =>
        simp only [List.set_cons_succ, List.take_succ_cons]
        rw [ih i' j' (by omega)]

theorem drop_set_of_lt {α : Type} (l : List α) (i j : ℕ) (v : α) (h : i < j) :
    (l.set i v).drop j = l.drop j := by
  induction l generalizing i j with
  | nil => simp
  | cons a rest ih =>
    cases i with
    | zero =>
      cases j with
      | zero => omega
      | succ j' => simp
    | succ i' =>
      cases j with
      | zero => omega
      | succ j' =>
        simp only [List.set_cons_succ, List.drop_succ_cons]
        exact ih i' j' (by omega)

theorem sum_set_incr (l : List ℕ) (i : ℕ) (hi : i < l.length) :
    (l.set i (l.getD i 0 + 1)).sum = l.sum + 1 := by
  induction l generalizing i with
  | nil => simp at hi
  | cons a rest ih =>
    cases i with
    | zero => simp [List.getD]; omega
    | succ i' =>
      simp only [List.length_cons] at hi
      simp only [List.set_cons_succ, List.sum_cons, List.getD_cons_succ]
      rw [ih i' (by omega)]
      omega

/-- The residual pass with `dir = 1` (adding): it never skips, so it adds 1
to each of the first `min diff fuel` indices starting at `i`, consuming that
much of the residual, and touches nothing before `i` or from `i + fuel` on. -/
theorem distPass_one (fuel : ℕ) : ∀ (i : ℕ) (l : List ℕ) (diff : ℕ),
    i + fuel ≤ l.length →
    (distPass 1 i fuel l diff).1.length = l.length ∧
    (distPass 1 i fuel l diff).1.sum = l.sum + min diff fuel ∧
    (distPass 1 i fuel l diff).2 = diff - min diff fuel ∧
    (∀ j, j ≤ i → (distPass 1 i fuel l diff).1.take j = l.take j) ∧
    (∀ j, i + fuel ≤ j → (distPass 1 i fuel l diff).1.drop j = l.drop j) := by
  induction fuel with
  | zero =>
    intro i l diff h
    simp [distPass]
  | succ fuel ih =>
    intro i l diff h
    unfold distPass
    by_cases hd : diff = 0
    · rw [if_pos hd]
      simp [hd]
    · rw [if_neg hd]
      have hskip : ¬((1 : ℤ) < 0 ∧ ((l.getD i 0 : ℤ) + 1) < 10) := by
        intro hcontra
        omega
      rw [if_neg hskip]
      have hval : (((l.getD i 0 : ℤ)) + 1).toNat = l.getD i 0 + 1 := by omega
      rw [hval]
      have hlen : i < l.length := by omega
      have hsetlen : (l.set i (l.getD i 0 + 1)).length = l.length := by simp
      have hrec := ih (i + 1) (l.set i (l.getD i 0 + 1)) (diff - 1)
        (by rw [hsetlen]; omega)
      refine ⟨?_, ?_, ?_, ?_, ?_⟩
      · rw [hrec.1, hsetlen]
      · rw [hrec.2.1, sum_set_incr l i hlen]
        have : min diff (fuel + 1) = 1 + min (diff - 1) fuel := by omega
        omega
      · rw [hrec.2.2.1]
        omega
      · intro j hj
        rw [hrec.2.2.2.1 j (by omega), take_set_of_le l i j _ hj]
      · intro j hj
        rw [hrec.2.2.2.2 j (by omega), drop_set_of_lt l i j _ (by omega)]

/-- Any residual pass (either direction) preserves length and everything
outside `[i, i + fuel)`. -/
theorem distPass_preserve (dir : ℤ) (fuel : ℕ) : ∀ (i : ℕ) (l : List ℕ) (diff : ℕ),
    (distPass dir i fuel l diff).1.length = l.length ∧
    (∀ j, j ≤ i → (distPass dir i fuel l diff).1.take j = l.take j) ∧
    (∀ j, i + fuel ≤ j → (distPass dir i fuel l diff).1.drop j = l.drop j) := by
  induction fuel with
  | zero =>
    intro i l diff
    simp [distPass]
  | succ fuel ih =>
    intro i l diff
    unfold distPass
    by_cases hd : diff = 0
    · rw [if_pos hd]
      exact ⟨rfl, fun j _ => rfl, fun j _ => rfl⟩
    · rw [if_neg hd]
      by_cases hskip : dir < 0 ∧ ((l.getD i 0 : ℤ) + dir) < 10
      · rw [if_pos hskip]
        have hrec := ih (i + 1) l diff
        exact ⟨hrec.1, fun j hj => hrec.2.1 j (by omega),
          fun j hj => hrec.2.2 j (by omega)⟩
      · rw [if_neg hskip]
        have hrec := ih (i + 1) (l.set i ((l.getD i 0 : ℤ) + dir).toNat) (diff - 1)
        refine ⟨by rw [hrec.1]; simp, ?_, ?_⟩
        · intro j hj
          rw [hrec.2.1 j (by omega), take_set_of_le l i j _ hj]
        · intro j hj
          rw [hrec.2.2 j (by omega), drop_set_of_lt l i j _ (by omega)]

/-- A pass with no residual left is the identity. -/
theorem distPass_zero_diff (dir : ℤ) (i fuel : ℕ) (l : List ℕ) :
    distPass dir i fuel l 0 = (l, 0) := by
  cases fuel <;> rfl

theorem sum_split_range (l : List ℕ) (s e : ℕ) (hse : s ≤ e + 1)
    (hel : e + 1 ≤ l.length) :
    (l.take s).sum + rSum l s e + (l.drop (e + 1)).sum = l.sum := by
  unfold rSum
  have h1 : l = l.take s ++ l.drop s := (List.take_append_drop s l).symm
  have h2 : l.drop s = (l.drop s).take (e + 1 - s) ++ (l.drop s).drop (e + 1 - s) :=
    (List.take_append_drop (e + 1 - s) (l.drop s)).symm
  have h3 : (l.drop s).drop (e + 1 - s) = l.drop (e + 1) := by
    rw [List.drop_drop]
    congr 1
    omega
  conv_rhs => rw [h1]
  rw [List.sum_append]
  conv_rhs => rw [h2]
  rw [List.sum_append, h3]
  omega

/-- Two lists that agree outside the window `[s, e]`, have equal length, and
whose total sums differ by `k`, have window sums differing by `k`. -/
theorem rSum_of_outside_eq (l₁ l₂ : List ℕ) (s e k : ℕ) (hse : s ≤ e + 1)
    (hel : e + 1 ≤ l₂.length) (hlen : l₁.length = l₂.length)
    (htake : l₁.take s = l₂.take s) (hdrop : l₁.drop (e + 1) = l₂.drop (e + 1))
    (hsum : l₁.sum = l₂.sum + k) :
    rSum l₁ s e = rSum l₂ s e + k := by
  have h1 := sum_split_range l₁ s e hse (by omega)
  have h2 := sum_split_range l₂ s e hse hel
  rw [htake, hdrop] at h1
  omega

theorem scaleGo_past (s e t c : ℕ) : ∀ (l : List ℕ) (i : ℕ), e < i →
    scaleGo s e t c i l = l := by
  intro l
  induction l with
  | nil => intro i _; rfl
  | cons d rest ih =>
    intro i hi
    unfold scaleGo
    rw [if_neg (by omega), ih (i + 1) (by omega)]

theorem scaleGo_inside (s e t c : ℕ) : ∀ (l : List ℕ) (i : ℕ), s ≤ i →
    scaleGo s e t c i l =
      (l.take (e + 1 - i)).map (scaleFun t c) ++ l.drop (e + 1 - i) := by
  intro l
  induction l with
  | nil => intro i _; simp [scaleGo]
  | cons d rest ih =>
    intro i hi
    unfold scaleGo
    by_cases hie : i ≤ e
    · rw [if_pos ⟨hi, hie⟩]
      have hn : e + 1 - i = (e + 1 - (i + 1)) + 1 := by omega
      rw [hn]
      simp only [List.take_succ_cons, List.map_cons, List.drop_succ_cons,
        List.cons_append]
      rw [ih (i + 1) (by omega)]
    · rw [if_neg (by omega)]
      have hn : e + 1 - i = 0 := by omega
      rw [hn]
      simp only [List.take_zero, List.map_nil, List.drop_zero, List.nil_append]
      rw [scaleGo_past s e t c rest (i + 1) (by omega)]

theorem scaleGo_split (s e t c : ℕ) : ∀ (l : List ℕ) (i : ℕ), i ≤ s →
    scaleGo s e t c i l =
      l.take (s - i) ++ ((l.drop (s - i)).take (e + 1 - s)).map (scaleFun t c) ++
        (l.drop (s - i)).drop (e + 1 - s) := by
  intro l
  induction l with
  | nil => intro i _; simp [scaleGo]
  | cons d rest ih =>
    intro i hi
    by_cases his : i = s
    · subst his
      simp only [Nat.sub_self, List.take_zero, List.drop_zero, List.nil_append]
      rw [scaleGo_inside _ _ t c (d :: rest) _ le_rfl]
    · unfold scaleGo
      rw [if_neg (by omega)]
      have hs1 : s - i = (s - (i + 1)) + 1 := by omega
      rw [hs1]
      simp only [List.take_succ_cons, List.drop_succ_cons, List.cons_append]
      rw [ih (i + 1) (by omega)]

theorem sum_map_affine (a b : ℕ) (f : ℕ → ℕ) (w : List ℕ) :
    (w.map (fun d => a * f d + b)).sum = a * (w.map f).sum + w.length * b := by
  induction w with
  | nil => simp
  | cons d rest ih =>
    simp only [List.map_cons, List.sum_cons, List.length_cons, ih]
    ring

/-- The rounding bound: the scaled-and-floored window sum `ns` satisfies
`2·t ≤ 2·ns + n`, because each rounded value sits within 1/2 of the exact
scaled value and the window's exact scaled values sum to `t`. -/
theorem scaled_window_bound (t c n : ℕ) (w : List ℕ) (hc : w.sum = c)
    (hcpos : 0 < c) (hn : w.length = n) :
    2 * t ≤ 2 * (w.map (scaleFun t c)).sum + n := by
  have hpoint : ∀ d ∈ w, 2 * t * d + (c + 1) ≤ 2 * c * scaleFun t c d + 2 * c := by
    intro d _
    have hdm := Nat.div_add_mod (2 * d * t + c) (2 * c)
    have hmlt : (2 * d * t + c) % (2 * c) < 2 * c := Nat.mod_lt _ (by omega)
    have hge : (2 * d * t + c) / (2 * c) ≤ scaleFun t c d := le_max_right _ _
    have hmul : 2 * c * ((2 * d * t + c) / (2 * c)) ≤ 2 * c * scaleFun t c d :=
      Nat.mul_le_mul_left _ hge
    have hdt : 2 * t * d = 2 * d * t := by ring
    omega
  have hsum := List.sum_le_sum hpoint
  have hlhs : (w.map (fun d => 2 * t * d + (c + 1))).sum
      = 2 * t * w.sum + w.length * (c + 1) := by
    have := sum_map_affine (2 * t) (c + 1) (fun d => d) w
    simpa using this
  have hrhs : (w.map (fun d => 2 * c * scaleFun t c d + 2 * c)).sum
      = 2 * c * (w.map (scaleFun t c)).sum + w.length * (2 * c) :=
    sum_map_affine (2 * c) (2 * c) (scaleFun t c) w
  rw [hlhs, hrhs, hc, hn] at hsum
  have hfin : c * (2 * t) ≤ c * (2 * (w.map (scaleFun t c)).sum + n) := by
    nlinarith [hsum]
  exact Nat.le_of_mul_le_mul_left hfin hcpos

theorem scaled_props (l : List ℕ) (s e t : ℕ) (hse : s ≤ e) (hel : e < l.length) :
    (scaledOf l s e t).length = l.length ∧
    (scaledOf l s e t).take s = l.take s ∧
    (scaledOf l s e t).drop (e + 1) = l.drop (e + 1) ∧
    rSum (scaledOf l s e t) s e =
      (((l.drop s).take (e + 1 - s)).map (scaleFun t (rSum l s e))).sum := by
  have hsplit : scaledOf l s e t =
      l.take s ++ (((l.drop s).take (e + 1 - s)).map (scaleFun t (rSum l s e)) ++
        (l.drop s).drop (e + 1 - s)) := by
    unfold scaledOf scaleDelays
    rw [scaleGo_split s e t (rSum l s e) l 0 (Nat.zero_le s)]
    simp [List.append_assoc]
  have htakelen : (l.take s).length = s := by
    simp
    omega
  have hwlen : (((l.drop s).take (e + 1 - s)).map
      (scaleFun t (rSum l s e))).length = e + 1 - s := by
    simp
    omega
  have hdd : (l.drop s).drop (e + 1 - s) = l.drop (e + 1) := by
    rw [List.drop_drop]
    congr 1
    omega
  refine ⟨?_, ?_, ?_, ?_⟩
  · rw [hsplit]
    simp
    omega
  · rw [hsplit]
    exact List.take_left' htakelen
  · rw [hsplit, hdd]
    rw [show l.take s ++ (((l.drop s).take (e + 1 - s)).map (scaleFun t (rSum l s e)) ++
        l.drop (e + 1))
      = (l.take s ++ ((l.drop s).take (e + 1 - s)).map (scaleFun t (rSum l s e))) ++
        l.drop (e + 1) from by simp [List.append_assoc]]
    have hlen2 : (l.take s ++ ((l.drop s).take (e + 1 - s)).map
        (scaleFun t (rSum l s e))).length = e + 1 := by
      simp
      omega
    exact List.drop_left' hlen2
  · unfold rSum
    rw [hsplit, List.drop_left' htakelen, List.take_left' hwlen]
    rfl

/-- C7 as amended: under the `targetSum > 0` guard, with the range in bounds
and a positive current range sum, the speed adjustment leaves every delay
outside `[rangeStart, rangeEnd]` unchanged (same prefix before the range and
same suffix after it, same length), and the in-range delays sum to exactly
the requested target whenever the scaled-and-floored sum does not exceed the
target (which covers scaling up, and scaling down while every rounded value
stays above the 10 ms floor); when the floor pushes the scaled sum above the
target, the two −1 ms passes cannot take frames below 10 ms and the sum can
remain above the target. -/
theorem speed_adjust_props (l : List ℕ) (s e t : ℕ)
    (hse : s ≤ e) (hel : e < l.length) (hcpos : 0 < rSum l s e) (ht : 0 < t) :
    (speedAdjust l s e t).length = l.length ∧
    (speedAdjust l s e t).take s = l.take s ∧
    (speedAdjust l s e t).drop (e + 1) = l.drop (e + 1) ∧
    (rSum (scaledOf l s e t) s e ≤ t → rSum (speedAdjust l s e t) s e = t) := by
  by_cases hg : t = rSum l s e
  · unfold speedAdjust
    rw [if_neg (by intro hcontra; exact hcontra.2 hg)]
    exact ⟨rfl, rfl, rfl, fun _ => hg.symm⟩
  · have hcond : 0 < t ∧ t ≠ rSum l s e := ⟨ht, hg⟩
    have hsp := scaled_props l s e t hse hel
    have hwsum : ((l.drop s).take (e + 1 - s)).sum = rSum l s e := rfl
    have hwl : ((l.drop s).take (e + 1 - s)).length = e + 1 - s := by
      simp
      omega
    have hbound := scaled_window_bound t (rSum l s e) (e + 1 - s)
      ((l.drop s).take (e + 1 - s)) hwsum hcpos hwl
    rw [← hsp.2.2.2] at hbound
    by_cases hdz : diffOf l s e t = 0
    · unfold speedAdjust
      rw [if_pos hcond, if_pos hdz]
      refine ⟨hsp.1, hsp.2.1, hsp.2.2.1, fun _ => ?_⟩
      unfold diffOf at hdz
      omega
    · unfold speedAdjust
      rw [if_pos hcond, if_neg hdz]
      by_cases hpos : 0 < diffOf l s e t
      · rw [if_pos hpos]
        have hns : rSum (scaledOf l s e t) s e < t := by
          unfold diffOf at hpos
          omega
        have habs : (diffOf l s e t).natAbs = t - rSum (scaledOf l s e t) s e := by
          unfold diffOf
          omega
        have hdle : (diffOf l s e t).natAbs ≤ e + 1 - s := by
          rw [habs]
          omega
        have hin : s + (e + 1 - s) ≤ (scaledOf l s e t).length := by
          rw [hsp.1]
          omega
        have hp1 := distPass_one (e + 1 - s) s (scaledOf l s e t)
          (diffOf l s e t).natAbs hin
        unfold twoPasses
        rw [hp1.2.2.1, Nat.min_eq_left hdle, Nat.sub_self, distPass_zero_diff]
        have hmin : min (diffOf l s e t).natAbs (e + 1 - s) = (diffOf l s e t).natAbs :=
          Nat.min_eq_left hdle
        refine ⟨by rw [hp1.1, hsp.1], ?_, ?_, fun _ => ?_⟩
        · rw [hp1.2.2.2.1 s le_rfl, hsp.2.1]
        · rw [hp1.2.2.2.2 (e + 1) (by omega), hsp.2.2.1]
        · have hrs := rSum_of_outside_eq
            (distPass 1 s (e + 1 - s) (scaledOf l s e t) (diffOf l s e t).natAbs).1
            (scaledOf l s e t) s e (diffOf l s e t).natAbs (by omega)
            (by rw [hsp.1]; omega) hp1.1 (hp1.2.2.2.1 s le_rfl)
            (hp1.2.2.2.2 (e + 1) (by omega))
            (by rw [hp1.2.1, hmin])
          rw [hrs, habs]
          omega
      · rw [if_neg hpos]
        have hneg : diffOf l s e t < 0 := by
          rcases lt_trichotomy (diffOf l s e t) 0 with h | h | h
          · exact h
          · exact absurd h hdz
          · exact absurd h hpos
        have hgt : t < rSum (scaledOf l s e t) s e := by
          unfold diffOf at hneg
          omega
        unfold twoPasses
        have hpin := distPass_preserve (-1) (e + 1 - s) s (scaledOf l s e t)
          (diffOf l s e t).natAbs
        have hpout := distPass_preserve (-1) (e + 1 - s) s
          (distPass (-1) s (e + 1 - s) (scaledOf l s e t) (diffOf l s e t).natAbs).1
          (distPass (-1) s (e + 1 - s) (scaledOf l s e t) (diffOf l s e t).natAbs).2
        refine ⟨by rw [hpout.1, hpin.1, hsp.1], ?_, ?_, fun hns => ?_⟩
        · rw [hpout.2.1 s le_rfl, hpin.2.1 s le_rfl, hsp.2.1]
        · rw [hpout.2.2 (e + 1) (by omega), hpin.2.2 (e + 1) (by omega), hsp.2.2.1]
        · omega

/-- Witness for the amended C7 at the spec's concrete scenario: delays
`[100, 100, 100]`, range `[0, 2]`, target 150 give `[50, 50, 50]` with the
range summing to exactly 150 and nothing outside the range (nothing) changed. -/
theorem speed_adjust_props_witness :
    (speedAdjust [100, 100, 100] 0 2 150).length = 3 ∧
    rSum (speedAdjust [100, 100, 100] 0 2 150) 0 2 = 150 ∧
    speedAdjust [100, 100, 100] 0 2 150 = [50, 50, 50] := by
  have h := speed_adjust_props [100, 100, 100] 0 2 150
    (by decide) (by decide) (by decide) (by decide)
  exact ⟨by simpa using h.1, h.2.2.2 (by decide), by decide⟩

/-! ## Workspace restore (src/unnamed/part_002, lines 1996-2065)

When the persisted order is nonempty, `loadWorkspaceFromPath` maps each
persisted name through `matchEntryByName` (the first directory entry whose
name matches exactly, case-insensitively, or after sanitizing
`[/\\:*?"<>|]` to `_`), drops unmatched names, and then sorts the survivors
with a comparator keyed on each entry's first index in the persisted order
(exact, then normalized, then sanitized, then lowercased), placing entries
without an index last in `localeCompare` order. When the persisted order is
empty it filters out temp artifacts and the same sort degenerates to
alphabetical. File names are modelled as strings of code points;
`String.prototype.normalize()` (Unicode NFC) is the identity on the NFC
names modelled here and is modelled as the identity. `Array.prototype.sort`
(stable) is modelled as a stable insertion sort. -/

/-- `String.prototype.normalize()`: identity on NFC strings. -/
def jsNormalize (s : String) : String := s

/-- `String.prototype.toLowerCase()` (code-point-wise). -/
def jsLower (s : String) : String := ⟨s.data.map Char.toLower⟩

/-- `.replace(/[\/\\:*?"<>|]/g, '_')`. -/
def wsSafeName (s : String) : String :=
  ⟨s.data.map (fun c =>
    if c = '/' ∨ c = '\\' ∨ c = ':' ∨ c = '*' ∨ c = '?' ∨ c = '"' ∨ c = '<' ∨
       c = '>' ∨ c = '|' then '_' else c)⟩

/-- One entry-name test of `matchEntryByName`: exact, case-insensitive or
sanitized-name match against the target. -/
def matchesEntry (target e : String) : Bool :=
  jsNormalize e = jsNormalize target ∨
  jsLower (jsNormalize e) = jsLower (jsNormalize target) ∨
  wsSafeName (jsNormalize e) = wsSafeName (jsNormalize target)

/-- `matchEntryByName`: the first directory entry matching the target by any
of the three rules (`allGifEntries.find(...)`). -/
def matchEntryByName (entries : List String) (target : String) : Option String :=
  entries.find? (fun e => matchesEntry target e)

/-- JavaScript `Array.prototype.findIndex` (−1 when absent). -/
def jsFindIndex (p : String → Bool) : List String → ℤ
  | [] => -1
  | x :: xs =>
    if p x then 0
    else if jsFindIndex p xs = -1 then -1 else jsFindIndex p xs + 1

/-- The sort key of the `gifEntries.sort` comparator: the entry's index in
the persisted order via exact `indexOf`, then normalized compare, then
sanitized `indexOf`, then lowercase compare. -/
def sortIndex (fileOrder : List String) (name : String) : ℤ :=
  if jsFindIndex (fun f => f = jsNormalize name) fileOrder ≠ -1 then
    jsFindIndex (fun f => f = jsNormalize name) fileOrder
  else if jsFindIndex (fun f => jsNormalize f = jsNormalize name) fileOrder ≠ -1 then
    jsFindIndex (fun f => jsNormalize f = jsNormalize name) fileOrder
  else if jsFindIndex (fun f => f = wsSafeName (jsNormalize name)) fileOrder ≠ -1 then
    jsFindIndex (fun f => f = wsSafeName (jsNormalize name)) fileOrder
  else jsFindIndex (fun f => jsLower f = jsLower (jsNormalize name)) fileOrder

/-- `localeCompare`, modelled as code-point string comparison. -/
def localeCmp (a b : String) : ℤ := if a = b then 0 else if a < b then -1 else 1

/-- The `gifEntries.sort` comparator. -/
def cmpEntries (fileOrder : List String) (a b : String) : ℤ :=
  if sortIndex fileOrder a ≠ -1 ∧ sortIndex fileOrder b ≠ -1 then
    sortIndex fileOrder a - sortIndex fileOrder b
  else if sortIndex fileOrder a ≠ -1 then -1
  else if sortIndex fileOrder b ≠ -1 then 1
  else localeCmp a b

/-- Stable insertion of `x` after every element it does not strictly
precede. -/
def insertCmp (cmp : String → String → ℤ) (x : String) : List String → List String
  | [] => [x]
  | y :: ys => if 0 ≤ cmp x y then y :: insertCmp cmp x ys else x :: y :: ys

/-- `Array.prototype.sort(cmp)`, modelled as a stable insertion sort. -/
def sortCmp (cmp : String → String → ℤ) (l : List String) : List String :=
  l.foldl (fun acc x => insertCmp cmp x acc) []

/-- JavaScript `String.prototype.includes`. -/
def strContains (s sub : String) : Bool :=
  s.data.tails.any (fun t => sub.data.isPrefixOf t)

/-- The restore pipeline for the file list: select entries (by persisted
order when one exists, else all non-temp entries), then sort with the
comparator. -/
def loadWorkspaceOrder (allGifEntries fileOrder : List String) : List String :=
  sortCmp (cmpEntries fileOrder)
    (if 0 < fileOrder.length then
      (fileOrder.map (matchEntryByName allGifEntries)).reduceOption
    else allGifEntries.filter (fun e =>
      !(strContains (jsLower e) "temp_color_restored") &&
      !(strContains (jsLower e) "temp_unoptimized")))

/-- Counterexample to C3: present-but-unnamed files are not appended — they
are dropped. With files `a.gif` and `b.gif` present and the persisted order
naming only `b.gif`, restore yields `[b.gif]`; the claim requires `a.gif` to
be appended at the end. -/
theorem workspace_restore_drops_unnamed :
    loadWorkspaceOrder ["a.gif", "b.gif"] ["b.gif"] = ["b.gif"] ∧
    "a.gif" ∈ (["a.gif", "b.gif"] : List String) ∧
    "a.gif" ∉ loadWorkspaceOrder ["a.gif", "b.gif"] ["b.gif"] := by
  refine ⟨by decide, by decide, by decide⟩

theorem matchesEntry_self (n : String) : matchesEntry n n = true := by
  simp [matchesEntry]

/-- When every rule-match of a persisted name against the present entries is
already an exact match, the resolution returns the name itself exactly when
it is present. -/
theorem match_of_exact (entries : List String) (n : String)
    (P : ∀ e ∈ entries, matchesEntry n e = true → e = n) :
    matchEntryByName entries n = if entries.contains n then some n else none := by
  induction entries with
  | nil => rfl
  | cons e es ih =>
    unfold matchEntryByName
    rw [List.find?_cons]
    by_cases hm : matchesEntry n e = true
    · have he : e = n := P e (List.mem_cons_self e es) hm
      rw [hm]
      subst he
      simp
    · rw [Bool.not_eq_true] at hm
      rw [hm]
      have hne : e ≠ n := by
        intro hcontra
        subst hcontra
        rw [matchesEntry_self] at hm
        exact Bool.noConfusion hm
      have := ih (fun x hx hmx => P x (List.mem_cons_of_mem e hx) hmx)
      unfold matchEntryByName at this
      rw [this]
      have hcont : (e :: es).contains n = es.contains n := by
        simp [List.contains_cons]
        intro hcontra
        exact absurd hcontra.symm hne
      rw [hcont]

theorem selection_eq (entries : List String) : ∀ (fileOrder : List String),
    (∀ n ∈ fileOrder, ∀ e ∈ entries, matchesEntry n e = true → e = n) →
    (fileOrder.map (matchEntryByName entries)).reduceOption =
      fileOrder.filter (fun n => entries.contains n) := by
  intro fileOrder
  induction fileOrder with
  | nil => intro _; rfl
  | cons n ns ih =>
    intro P
    have hm := match_of_exact entries n (P n (List.mem_cons_self n ns))
    have hrec := ih (fun x hx => P x (List.mem_cons_of_mem n hx))
    simp only [List.map_cons, List.filter_cons]
    by_cases hc : entries.contains n = true
    · rw [hc] at hm
      simp only [if_true] at hm
      rw [hm, hc]
      simp only [if_true, List.reduceOption_cons_of_some, hrec]
    · rw [Bool.not_eq_true] at hc
      rw [hc] at hm
      simp only [Bool.false_eq_true, if_false] at hm
      rw [hm, hc]
      simp only [Bool.false_eq_true, if_false, List.reduceOption_cons_of_none, hrec]

theorem jsFindIndex_nonneg (p : String → Bool) : ∀ (l : List String) (x : String),
    x ∈ l → p x = true → 0 ≤ jsFindIndex p l := by
  intro l
  induction l with
  | nil => intro x hx; simp at hx
  | cons y ys ih =>
    intro x hx hp
    unfold jsFindIndex
    by_cases hy : p y = true
    · rw [if_pos hy]
    · rw [if_neg hy]
      rcases List.mem_cons.1 hx with h | h
      · subst h
        exact absurd hp hy
      · have := ih x h hp
        by_cases hz : jsFindIndex p ys = -1
        · omega
        · rw [if_neg hz]
          omega

theorem jsFindIndex_cons (p : String → Bool) (x : String) (xs : List String) :
    jsFindIndex p (x :: xs) =
      if p x then 0
      else if jsFindIndex p xs = -1 then -1 else jsFindIndex p xs + 1 := rfl

theorem sortIndex_head (x : String) (xs : List String) :
    sortIndex (x :: xs) x = 0 := by
  unfold sortIndex
  have h : jsFindIndex (fun f => f = jsNormalize x) (x :: xs) = 0 := by
    rw [jsFindIndex_cons]
    rw [if_pos (by simp [jsNormalize])]
  rw [h]
  simp

theorem sortIndex_shift (x b : String) (xs : List String) (hb : b ∈ xs)
    (hbx : b ≠ x) : sortIndex (x :: xs) b = sortIndex xs b + 1 ∧ 0 ≤ sortIndex xs b := by
  have hfi : 0 ≤ jsFindIndex (fun f => f = jsNormalize b) xs :=
    jsFindIndex_nonneg _ xs b hb (by simp [jsNormalize])
  have hne : jsFindIndex (fun f => f = jsNormalize b) xs ≠ -1 := by omega
  have hcons : jsFindIndex (fun f => f = jsNormalize b) (x :: xs)
      = jsFindIndex (fun f => f = jsNormalize b) xs + 1 := by
    rw [jsFindIndex_cons]
    rw [if_neg (by simp [jsNormalize]; exact fun h => hbx h.symm), if_neg hne]
  constructor
  · unfold sortIndex
    rw [hcons]
    rw [if_pos (by omega), if_pos hne]
  · unfold sortIndex
    rw [if_pos hne]
    exact hfi

theorem sortIndex_pairwise : ∀ (fileOrder : List String), fileOrder.Nodup →
    fileOrder.Pairwise (fun a b =>
      0 ≤ sortIndex fileOrder a ∧ sortIndex fileOrder a < sortIndex fileOrder b) := by
  intro fileOrder
  induction fileOrder with
  | nil => intro _; exact List.Pairwise.nil
  | cons x xs ih =>
    intro hnd
    rw [List.nodup_cons] at hnd
    refine List.Pairwise.cons ?_ ?_
    · intro b hb
      have hbx : b ≠ x := fun h => hnd.1 (h ▸ hb)
      have hs := sortIndex_shift x b xs hb hbx
      rw [sortIndex_head, hs.1]
      omega
    · have hpair := ih hnd.2
      refine hpair.imp_of_mem ?_
      intro a b ha hb hab
      have hax : a ≠ x := fun h => hnd.1 (h ▸ ha)
      have hbx : b ≠ x := fun h => hnd.1 (h ▸ hb)
      rw [(sortIndex_shift x a xs ha hax).1, (sortIndex_shift x b xs hb hbx).1]
      omega

theorem insertCmp_append (cmp : String → String → ℤ) (x : String) :
    ∀ (acc : List String), (∀ y ∈ acc, 0 ≤ cmp x y) →
    insertCmp cmp x acc = acc ++ [x] := by
  intro acc
  induction acc with
  | nil => intro _; rfl
  | cons y ys ih =>
    intro h
    unfold insertCmp
    rw [if_pos (h y (List.mem_cons_self y ys))]
    rw [ih (fun z hz => h z (List.mem_cons_of_mem y hz))]
    rfl

theorem sortCmp_fold (cmp : String → String → ℤ) : ∀ (l acc : List String),
    (∀ x ∈ l, ∀ y ∈ acc, 0 ≤ cmp x y) →
    l.Pairwise (fun a b => 0 ≤ cmp b a) →
    l.foldl (fun acc x => insertCmp cmp x acc) acc = acc ++ l := by
  intro l
  induction l with
  | nil => intro acc _ _; simp
  | cons x xs ih =>
    intro acc hcross hpair
    rw [List.pairwise_cons] at hpair
    simp only [List.foldl_cons]
    rw [insertCmp_append cmp x acc (hcross x (List.mem_cons_self x xs))]
    rw [ih (acc ++ [x]) ?_ hpair.2]
    · simp
    · intro z hz y hy
      rcases List.mem_append.1 hy with h | h
      · exact hcross z (List.mem_cons_of_mem x hz) y h
      · have : y = x := by simpa using h
        subst this
        exact hpair.1 z hz

theorem sortCmp_of_sorted (cmp : String → String → ℤ) (l : List String)
    (hpair : l.Pairwise (fun a b => 0 ≤ cmp b a)) : sortCmp cmp l = l := by
  unfold sortCmp
  rw [sortCmp_fold cmp l [] (fun x _ y hy => absurd hy (List.not_mem_nil y)) hpair]
  rfl

/-- C3 as amended: when the persisted order is nonempty with distinct names
and every rule-match of a persisted name against the present files is exact,
restore yields exactly the named-and-present files in the persisted order,
skipping named-but-missing names without error — i.e. precisely the
persisted order filtered to present files. Present-but-unnamed files are not
appended: with a nonempty persisted order, the selection keeps matched names
only. (In general the resolution takes the first file matching any of the
three rules, not the best rule, and duplicate resolutions are possible.) -/
theorem workspace_restore (entries fileOrder : List String)
    (hne : fileOrder ≠ [])
    (hnd : fileOrder.Nodup)
    (P : ∀ n ∈ fileOrder, ∀ e ∈ entries, matchesEntry n e = true → e = n) :
    loadWorkspaceOrder entries fileOrder =
      fileOrder.filter (fun n => entries.contains n) := by
  unfold loadWorkspaceOrder
  have hlen : 0 < fileOrder.length := List.length_pos.2 hne
  rw [if_pos hlen, selection_eq entries fileOrder P]
  apply sortCmp_of_sorted
  have hidx := sortIndex_pairwise fileOrder hnd
  have hsub : (fileOrder.filter (fun n => entries.contains n)).Sublist fileOrder :=
    List.filter_sublist fileOrder
  have hpair := hidx.sublist hsub
  refine hpair.imp ?_
  intro a b hab
  unfold cmpEntries
  rw [if_pos ⟨by omega, by omega⟩]
  omega

/-- Witness for the amended C3: files `a.gif`, `b.gif`, `c.gif` present,
persisted order `[c.gif, missing.gif, a.gif]` — restore yields
`[c.gif, a.gif]` in persisted order, skipping the missing name. -/
theorem workspace_restore_witness :
    loadWorkspaceOrder ["a.gif", "b.gif", "c.gif"] ["c.gif", "missing.gif", "a.gif"]
      = ["c.gif", "a.gif"] :=
  (workspace_restore ["a.gif", "b.gif", "c.gif"] ["c.gif", "missing.gif", "a.gif"]
    (by decide) (by decide) (by decide)).trans (by decide)

end Gifcut
